import Mathlib

/-!
Verification of the holland backup orchestrator core against its
natural-language specification.

Each section below is a shallow embedding of one component of the source
tree (`holland/core/...`), translated directly from the Python code, with
theorems settling the specification claims about that component.
-/

set_option maxRecDepth 4096

namespace Holland

/-! ## Catalog queries (`holland/core/backup/catalog.py`)

`Catalog.previous_backup` filters rows with `start_time < backup.start_time`
and takes the first row of `ORDER BY start_time DESC LIMIT 1`;
`Catalog.next_backup` filters rows with `start_time > backup.start_time` and
*also* orders by `start_time DESC` before taking the first row.
A catalog is modelled as the list of its backup rows; `ORDER BY start_time
DESC LIMIT 1` applied to a row set yields a row of maximal `start_time`
(the first such row, matching a deterministic engine). -/

structure BackupRow where
  id : Nat
  start_time : Int
deriving DecidableEq, Repr

/-- The source's `ORDER BY start_time DESC LIMIT 1` + `.first()`: first row of maximal
`start_time`, or `none` for an empty row set. -/
def maxByStart : List BackupRow → Option BackupRow
  | [] => none
  | b :: rest =>
    match maxByStart rest with
    | none => some b
    | some m => if b.start_time < m.start_time then some m else some b

/-- The source's `Catalog.previous_backup`: rows with `start_time < backup.start_time`,
ordered by `start_time` descending, first row. -/
def previous_backup (catalog : List BackupRow) (b : BackupRow) : Option BackupRow :=
  maxByStart (catalog.filter (fun x => x.start_time < b.start_time))

/-- The source's `Catalog.next_backup`: rows with `start_time > backup.start_time`,
ordered by `start_time` *descending* (as the source does), first row. -/
def next_backup (catalog : List BackupRow) (b : BackupRow) : Option BackupRow :=
  maxByStart (catalog.filter (fun x => b.start_time < x.start_time))

/-- Three-row demonstration catalog with start times 1, 2, 3. -/
def demoCatalog : List BackupRow := [⟨1, 1⟩, ⟨2, 2⟩, ⟨3, 3⟩]

/-- C6: `previous_backup(b)` does return the backup with the greatest
`start_time` strictly before `b`, but `next_backup(b)` returns the backup
with the *greatest* (not least) `start_time` strictly after `b`: on the
catalog {1,2,3} the successor query for the row at time 1 yields the row at
time 3 although the row at time 2 is strictly between them. -/
theorem c6_next_backup_wrong_extreme :
    next_backup demoCatalog ⟨1, 1⟩ = some ⟨3, 3⟩ ∧
    previous_backup demoCatalog ⟨3, 3⟩ = some ⟨2, 2⟩ ∧
    (⟨2, 2⟩ : BackupRow) ∈ demoCatalog ∧ (1 : Int) < 2 ∧ (2 : Int) < 3 := by
  refine ⟨by decide, by decide, by decide, by decide, by decide⟩

/-! ## Plugin registry (`holland/core/plugin/loader.py`)

`RegistryPluginLoader` keeps `registry : namespace -> (name -> class)` as
ordered dictionaries.  `register` records a class under its name and each
alias; `load` looks the class up and returns it *as stored*; `iterate`
yields `plugin_cls(name)` — a constructed instance — for each entry in
insertion order. -/

/-- A registered plugin class: identity of the class object plus the
registration attributes read by `register`. -/
structure PluginClass where
  clsId : Nat
  ns : String
  name : String
  aliases : List String
deriving DecidableEq, Repr

/-- A Python value that `load`/`iterate` can produce: either the class
object itself, or an instance `cls(name)` constructed from it. -/
inductive PyPluginVal where
  | classObj (cls : PluginClass)
  | instanceObj (cls : PluginClass) (name : String)
deriving DecidableEq, Repr

/-- Discriminator: is this value a constructed plugin instance (rather
than a bare class object)? -/
def isInstanceObj : PyPluginVal → Bool
  | .instanceObj _ _ => true
  | .classObj _ => false

/-- The source's `PluginNotFoundError(namespace, name)`; `name=None` when the whole
namespace is unknown. -/
structure PluginNotFound where
  ns : String
  name : Option String
deriving DecidableEq, Repr

/-- Ordered-dict lookup. -/
def odGet (k : String) : List (String × β) → Option β
  | [] => none
  | (k', v) :: rest => if k' = k then some v else odGet k rest

/-- Ordered-dict store: update in place, else append. -/
def odSet (k : String) (v : β) : List (String × β) → List (String × β)
  | [] => [(k, v)]
  | (k', v') :: rest => if k' = k then (k', v) :: rest else (k', v') :: odSet k v rest

abbrev Registry := List (String × List (String × PluginClass))

/-- The source's `RegistryPluginLoader.register`: store the class under its name and
every alias in the namespace dictionary (created on demand via
`setdefault`). -/
def registerPlugin (reg : Registry) (cls : PluginClass) : Registry :=
  let nsd := (odGet cls.ns reg).getD []
  let nsd := (cls.name :: cls.aliases).foldl (fun d n => odSet n cls d) nsd
  odSet cls.ns nsd reg

/-- The source's `RegistryPluginLoader.load`: two dictionary lookups; an unknown
namespace or name raises `PluginNotFoundError`; a hit returns the stored
class object itself (`return plugin_namespace[name]` — no construction). -/
def loadPlugin (reg : Registry) (ns name : String) : Except PluginNotFound PyPluginVal :=
  match odGet ns reg with
  | none => .error ⟨ns, none⟩
  | some d =>
    match odGet name d with
    | none => .error ⟨ns, some name⟩
    | some cls => .ok (.classObj cls)

/-- The source's `RegistryPluginLoader.iterate`: yield `plugin_cls(name)` for every
entry of the namespace dictionary in insertion order. -/
def iteratePlugins (reg : Registry) (ns : String) : List PyPluginVal :=
  ((odGet ns reg).getD []).map (fun e => .instanceObj e.2 e.1)

def demoCls : PluginClass := ⟨7, "holland.backup", "demo", ["demo-alias"]⟩

def demoRegistry : Registry := registerPlugin [] demoCls

/-- C7: on a registry holding one class (registered under its name and one
alias), `load` returns the registered class object itself — not a freshly
constructed instance as its own docstring (`:returns: BasePlugin instance`)
promises — for both the name and the alias, while `iterate` does yield
constructed instances in insertion order, and unknown namespaces/names do
raise `PluginNotFoundError`. -/
theorem c7_load_returns_class_not_instance :
    loadPlugin demoRegistry "holland.backup" "demo" = .ok (.classObj demoCls) ∧
    loadPlugin demoRegistry "holland.backup" "demo-alias" = .ok (.classObj demoCls) ∧
    isInstanceObj (.classObj demoCls) = false ∧
    iteratePlugins demoRegistry "holland.backup" =
      [.instanceObj demoCls "demo", .instanceObj demoCls "demo-alias"] ∧
    loadPlugin demoRegistry "nope" "demo" = .error ⟨"nope", none⟩ ∧
    loadPlugin demoRegistry "holland.backup" "nope" = .error ⟨"holland.backup", some "nope"⟩ := by
  exact ⟨rfl, rfl, rfl, rfl, rfl, rfl⟩

/-! ## Integer validator (`holland/core/config/validators.py`)

`IntValidator.convert` parses `int(value, base)` and range-checks against
`min`/`max` from the check's kwargs.  Every failure branch executes
`raise ValidationError(...)`, but the name `ValidationError` is defined
nowhere in the module (the module defines `ValidatorError`), so evaluating
the raise expression itself raises `NameError` at runtime. -/

/-- The exception actually escaping a Python expression. -/
inductive PyExc where
  /-- The source's `ValidatorError(message, value)` as defined in `validators.py`. -/
  | validatorErr (message : String) (value : String)
  /-- The source's `NameError: name '<ident>' is not defined`. -/
  | nameErr (ident : String)
deriving DecidableEq, Repr

/-- Discriminator: is this exception a `ValidatorError`? -/
def isValidatorErr : Except PyExc Int → Bool
  | .error (.validatorErr _ _) => true
  | _ => false

/-- Digit value of a character for `int(s, base)`: `0`-`9`, `a`-`z`,
`A`-`Z`. -/
def pyDigitVal (c : Char) : Option Nat :=
  if '0' ≤ c ∧ c ≤ '9' then some (c.toNat - 48)
  else if 'a' ≤ c ∧ c ≤ 'z' then some (c.toNat - 97 + 10)
  else if 'A' ≤ c ∧ c ≤ 'Z' then some (c.toNat - 65 + 10)
  else none

def pyDigitsVal (base : Nat) (acc : Nat) : List Char → Option Nat
  | [] => some acc
  | c :: rest =>
    match pyDigitVal c with
    | some d => if d < base then pyDigitsVal base (acc * base + d) rest else none
    | none => none

/-- Python `int(s, base)`: optional surrounding whitespace, optional sign,
a nonempty run of digits valid in `base`; anything else raises
`ValueError`. -/
def pyIntOfString (s : String) (base : Nat) : Option Int :=
  let cs := (s.data.dropWhile (· = ' ')).reverse.dropWhile (· = ' ') |>.reverse
  let (neg, digits) :=
    match cs with
    | '-' :: rest => (true, rest)
    | '+' :: rest => (false, rest)
    | _ => (false, cs)
  if digits = [] then none
  else
    match pyDigitsVal base 0 digits with
    | none => none
    | some n => some (if neg then -(n : Int) else (n : Int))

/-- The `min`/`max`/`base` kwargs bound to the `integer` check. -/
structure IntCheck where
  base : Nat := 10
  min? : Option Int := none
  max? : Option Int := none
deriving Repr

/-- The source's `IntValidator.convert`, translated branch by branch: a failed parse or
a violated bound executes `raise ValidationError(...)`, and since
`ValidationError` is an undefined name the branch actually raises
`NameError` (the `max` bound is additionally guarded by truthiness, so
`max=0` disables the check, and `min` by an `is not None` test). -/
def minViolated (chk : IntCheck) (v : Int) : Bool :=
  match chk.min? with | some m => decide (v < m) | none => false

def maxViolated (chk : IntCheck) (v : Int) : Bool :=
  match chk.max? with | some m => !decide (m = 0) && decide (m < v) | none => false

def intConvert (chk : IntCheck) (value : String) : Except PyExc Int :=
  match pyIntOfString value chk.base with
  | none => .error (.nameErr "ValidationError")
  | some v =>
    if minViolated chk v then
      .error (.nameErr "ValidationError")
    else if maxViolated chk v then
      .error (.nameErr "ValidationError")
    else
      .ok v

/-- C8: the integer validator's happy path does return the base-N parsed,
range-checked integer, but no failing input ever produces a
`ValidatorError` carrying the offending value: every error branch raises
`NameError` (the raised name `ValidationError` is undefined in the
module).  Concretely, `"abc"` under the default check raises `NameError`,
as does an in-format but out-of-range value. -/
theorem c8_invalid_int_raises_nameerror :
    intConvert {} "abc" = .error (.nameErr "ValidationError") ∧
    intConvert { min? := some 1 } "0" = .error (.nameErr "ValidationError") ∧
    intConvert {} "42" = .ok 42 ∧
    intConvert { base := 16 } "ff" = .ok 255 ∧
    (∀ chk value, isValidatorErr (intConvert chk value) = false) := by
  refine ⟨rfl, rfl, rfl, rfl, ?_⟩
  intro chk value
  have hcases : (∃ w, intConvert chk value = .ok w) ∨
      intConvert chk value = .error (.nameErr "ValidationError") := by
    unfold intConvert
    rcases pyIntOfString value chk.base with _ | n
    · exact .inr rfl
    · by_cases h1 : minViolated chk n <;> by_cases h2 : maxViolated chk n <;> simp [h1, h2]
  rcases hcases with ⟨w, hw⟩ | hw <;> rw [hw] <;> rfl

/-! ## Spool timestamps (`holland/core/backup/spool.py`)

`BackupSpool.add_node` writes `'{0:%Y%m%d_%H%M%S}'.format(datetime.now())`
into `.holland/timestamp` — no microsecond field.  `BackupNode.timestamp`
and the sort key of `BackupSpool.iter_nodes` parse that file back with
`datetime.strptime(data, '%Y%m%d_%H%M%S.%f')`, a pattern that requires a
`.` and a 1-6 digit fraction, falling back to `datetime.fromtimestamp(0)`
on `ValueError`.  `iter_nodes` sorts the directory listing with Python's
stable `sorted` keyed on that parse. -/

structure PyDateTime where
  year : Nat
  month : Nat
  day : Nat
  hour : Nat
  minute : Nat
  second : Nat
  microsecond : Nat
deriving DecidableEq, Repr

def digitChar (d : Nat) : Char :=
  match d % 10 with
  | 0 => '0' | 1 => '1' | 2 => '2' | 3 => '3' | 4 => '4'
  | 5 => '5' | 6 => '6' | 7 => '7' | 8 => '8' | _ => '9'

def pad2 (n : Nat) : List Char := [digitChar (n / 10), digitChar n]

def pad4 (n : Nat) : List Char :=
  [digitChar (n / 1000), digitChar (n / 100), digitChar (n / 10), digitChar n]

/-- The source's `'{0:%Y%m%d_%H%M%S}'.format(dt)` — the string `add_node` writes to
the timestamp file (each directive is fixed-width zero-padded; no
microsecond directive appears in the format). -/
def formatTimestamp (dt : PyDateTime) : List Char :=
  pad4 dt.year ++ pad2 dt.month ++ pad2 dt.day ++ ['_'] ++
    pad2 dt.hour ++ pad2 dt.minute ++ pad2 dt.second

/-- Read exactly `k` decimal digits, accumulating their value. -/
def readFixedNat (k : Nat) (acc : Nat) (cs : List Char) : Option (Nat × List Char) :=
  match k with
  | 0 => some (acc, cs)
  | k + 1 =>
    match cs with
    | [] => none
    | c :: rest => if c.isDigit then readFixedNat k (acc * 10 + (c.toNat - 48)) rest else none

/-- The source's `%f`: one to six digits, scaled to microseconds, which must exhaust
the input. -/
def readFraction (cs : List Char) : Option Nat :=
  if cs ≠ [] ∧ cs.length ≤ 6 ∧ cs.all (·.isDigit) then
    match pyDigitsVal 10 0 cs with
    | some n => some (n * 10 ^ (6 - cs.length))
    | none => none
  else none

/-- The source's `datetime.strptime(data, '%Y%m%d_%H%M%S.%f')`: four digits of year,
two each of month/day, a literal `_`, two each of hour/minute/second, a
literal `.`, then `%f`; any residue or missing piece raises `ValueError`
(modelled as `none`). -/
def parseTimestamp (s : List Char) : Option PyDateTime := do
  let (y, cs) ← readFixedNat 4 0 s
  let (mo, cs) ← readFixedNat 2 0 cs
  let (d, cs) ← readFixedNat 2 0 cs
  match cs with
  | '_' :: cs =>
    let (h, cs) ← readFixedNat 2 0 cs
    let (mi, cs) ← readFixedNat 2 0 cs
    let (sec, cs) ← readFixedNat 2 0 cs
    match cs with
    | '.' :: cs =>
      let us ← readFraction cs
      if 1 ≤ mo ∧ mo ≤ 12 ∧ 1 ≤ d ∧ d ≤ 31 ∧ h ≤ 23 ∧ mi ≤ 59 ∧ sec ≤ 61 then
        some ⟨y, mo, d, h, mi, sec, us⟩
      else none
    | _ => none
  | _ => none

/-- The source's `datetime.fromtimestamp(0)` — the epoch fallback every unparsable
timestamp file is sorted under. -/
def epochZero : PyDateTime := ⟨1970, 1, 1, 0, 0, 0, 0⟩

/-- A directory entry of a backupset as `iter_nodes` sees it: its name and
the content of its `.holland/timestamp` file (`none` when unreadable). -/
structure SpoolEntry where
  name : String
  tsFile : Option (List Char)
deriving Repr

/-- The `key_by_timestamp` sort key of `iter_nodes`: parse the timestamp
file, epoch zero on `IOError`/`ValueError`. -/
def keyByTimestamp (e : SpoolEntry) : PyDateTime :=
  match e.tsFile with
  | none => epochZero
  | some cs => (parseTimestamp cs).getD epochZero

/-- Strict chronological (lexicographic) comparison of parsed
timestamps, as `datetime` instances compare in Python. -/
def dtLt (a b : PyDateTime) : Bool :=
  if a.year ≠ b.year then a.year < b.year
  else if a.month ≠ b.month then a.month < b.month
  else if a.day ≠ b.day then a.day < b.day
  else if a.hour ≠ b.hour then a.hour < b.hour
  else if a.minute ≠ b.minute then a.minute < b.minute
  else if a.second ≠ b.second then a.second < b.second
  else a.microsecond < b.microsecond

/-- Stable insertion into a key-sorted list (an element is placed before
the first element whose key is not strictly smaller, preserving the
relative order of equal keys, as Python's stable `sorted` does). -/
def insertStable (e : SpoolEntry) : List SpoolEntry → List SpoolEntry
  | [] => [e]
  | x :: rest =>
    if dtLt (keyByTimestamp x) (keyByTimestamp e) then x :: insertStable e rest
    else e :: x :: rest

/-- The source's `sorted(entries, key=key_by_timestamp)`: stable sort on the parsed
timestamp key. -/
def sortEntries : List SpoolEntry → List SpoolEntry
  | [] => []
  | e :: rest => insertStable e (sortEntries rest)

/-- The source's `iter_nodes` over a directory listing: sort by the timestamp key, then
skip the `.holland` entry (symlink entries are assumed already absent from
the listing). -/
def iterNodes (entries : List SpoolEntry) : List String :=
  (sortEntries entries).filter (fun e => e.name ≠ ".holland") |>.map (·.name)

/-- Two nodes created by `add_node` one second apart, listed by the
filesystem in reverse chronological order (`os.listdir` order is
arbitrary). -/
def demoEntries : List SpoolEntry :=
  [⟨"20240102_000001", some (formatTimestamp ⟨2024, 1, 2, 0, 0, 1, 0⟩)⟩,
   ⟨"20240102_000000", some (formatTimestamp ⟨2024, 1, 2, 0, 0, 0, 0⟩)⟩,
   ⟨".holland", none⟩]

theorem digitChar_isDigit (d : Nat) : (digitChar d).isDigit = true := by
  unfold digitChar
  split <;> decide

/-- C2 core: every timestamp `add_node` writes fails to parse back —
the writer's format has no fractional-seconds field while the reader's
pattern demands one. -/
theorem addnode_timestamp_never_parses (dt : PyDateTime) :
    parseTimestamp (formatTimestamp dt) = none := by
  simp only [formatTimestamp, pad4, pad2]
  simp [parseTimestamp, readFixedNat, digitChar_isDigit, bind, Option.bind]

/-- C2: the timestamp round-trip is broken: for every node written by
`add_node` the stored timestamp fails to parse under the `%Y%m%d_%H%M%S.%f`
pattern used by `iter_nodes`/`timestamp()` (no microseconds are retained,
contradicting the claim), so every such node sorts under the epoch-zero
fallback; consequently on a two-node spool whose directory listing is in
reverse chronological order, `iter_nodes` keeps that order instead of the
stored-timestamp order. -/
theorem c2_timestamp_roundtrip_broken :
    (∀ dt : PyDateTime, parseTimestamp (formatTimestamp dt) = none) ∧
    demoEntries.map keyByTimestamp = [epochZero, epochZero, epochZero] ∧
    iterNodes demoEntries = ["20240102_000001", "20240102_000000"] := by
  exact ⟨addnode_timestamp_never_parses, by decide, by decide⟩

/-! ## Purging a backupset (`holland/core/backup/controller.py`)

`BackupController.purge_set(name, purge_options, exclude)` lists the
nodes of a backupset via `iter_nodes` (timestamp order, oldest first) and
walks them in `reversed` order (newest first), building `kept_backups`:
an excluded node is appended; then, if `len(kept_backups)` has reached
`retention_count` the walk continues, otherwise a node whose resolved
backup status is `'completed'` is appended (an excluded completed node is
appended twice).  If `kept_backups` is nonempty the `oldest` symlink is
pointed at `kept_backups[0]` and `newest` at `kept_backups[-1]`;
otherwise both are unlinked.  Every candidate that is neither excluded
nor (by path equality, `BackupNode.__eq__`) in `kept_backups` is released
and purged.  With `dry_run` (the default options are
`PurgeOptions(retention_count=1, dry_run=True)`) all of this is only
logged.

A node is modelled by its path and its resolved status (the catalog row's
status when one matches the node path, else the node's status file,
`'failed'` when unreadable). -/

structure SNode where
  path : String
  status : String
deriving DecidableEq, Repr

/-- Targets of the `oldest`/`newest` symlinks of a backupset directory
(`none` = symlink absent). -/
structure SymlinkState where
  oldest : Option String
  newest : Option String
deriving DecidableEq, Repr

structure PurgeOptions where
  retention_count : Nat
  dry_run : Bool
deriving DecidableEq, Repr

/-- The source's `os.path.basename`: everything after the last `/`. -/
def basename (p : String) : String :=
  ⟨p.data.foldl (fun acc c => if c = '/' then [] else acc ++ [c]) []⟩

/-- The `for node in reversed(candidates)` loop of `purge_set`, state =
`kept_backups` (the input list here is already reversed: newest first). -/
def keptScanGo (R : Nat) (exclude : List String) : List SNode → List SNode → List SNode
  | kept, [] => kept
  | kept, n :: rest =>
    let kept' := if exclude.contains n.path then kept ++ [n] else kept
    if R ≤ kept'.length then keptScanGo R exclude kept' rest
    else if n.status == "completed" then keptScanGo R exclude (kept' ++ [n]) rest
    else keptScanGo R exclude kept' rest

/-- The observable outcome of one `purge_set` call. -/
structure PurgeResult where
  kept : List SNode
  links : SymlinkState
  released : List String
  purged : List String
deriving DecidableEq, Repr

/-- The symlink update of `purge_set`: when anything was kept, point
`oldest` at `kept_backups[0]` and `newest` at `kept_backups[-1]` (via
`replace_symlink`, which installs a basename target); otherwise unlink
both, tolerating absence.  Dry run only logs. -/
def purgeLinks (links : SymlinkState) (dry : Bool) (kept : List SNode) : SymlinkState :=
  match kept with
  | [] => if dry then links else ⟨none, none⟩
  | k0 :: ks =>
    if dry then links
    else ⟨some (basename k0.path), some (basename ((k0 :: ks).getLastD k0).path)⟩

/-- The purge loop's victims: every candidate neither excluded nor (by
path equality, `BackupNode.__eq__`) a member of `kept_backups`. -/
def purgeTargets (kept : List SNode) (exclude : List String)
    (candidates : List SNode) : List String :=
  (candidates.filter
    (fun n => !(exclude.contains n.path) && !(kept.any (fun m => m.path == n.path)))).map
    (·.path)

/-- The source's `BackupController.purge_set`, over the candidate list in `iter_nodes`
order (oldest first) and the current symlink state. -/
def purge_set (links : SymlinkState) (candidates : List SNode)
    (purge_options : Option PurgeOptions) (exclude : List String) : PurgeResult :=
  let opts := purge_options.getD ⟨1, true⟩
  let kept := keptScanGo opts.retention_count exclude [] candidates.reverse
  if opts.dry_run then ⟨kept, purgeLinks links true kept, [], []⟩
  else ⟨kept, purgeLinks links false kept,
        purgeTargets kept exclude candidates, purgeTargets kept exclude candidates⟩

theorem purgeLinks_dry (links : SymlinkState) (kept : List SNode) :
    purgeLinks links true kept = links := by
  cases kept <;> rfl

/-- Unfolding `purge_set` at explicit options. -/
theorem purge_set_explicit (links : SymlinkState) (candidates : List SNode)
    (R : Nat) (dry : Bool) (exclude : List String) :
    purge_set links candidates (some ⟨R, dry⟩) exclude =
      if dry then
        ⟨keptScanGo R exclude [] candidates.reverse,
         purgeLinks links true (keptScanGo R exclude [] candidates.reverse), [], []⟩
      else
        ⟨keptScanGo R exclude [] candidates.reverse,
         purgeLinks links false (keptScanGo R exclude [] candidates.reverse),
         purgeTargets (keptScanGo R exclude [] candidates.reverse) exclude candidates,
         purgeTargets (keptScanGo R exclude [] candidates.reverse) exclude candidates⟩ := rfl

/-- The source's `purge_set` with no options defaults to
`PurgeOptions(retention_count=1, dry_run=True)`. -/
theorem purge_set_default (links : SymlinkState) (candidates : List SNode)
    (exclude : List String) :
    purge_set links candidates none exclude =
      purge_set links candidates (some ⟨1, true⟩) exclude := rfl

/-- C10: a dry-run `purge_set` (explicit `dry_run=True`, or the implicit
default options) purges nothing, releases nothing and leaves the
`oldest`/`newest` symlinks untouched. -/
theorem c10_dry_run_is_pure (links : SymlinkState) (candidates : List SNode)
    (opts : PurgeOptions) (exclude : List String) (hdry : opts.dry_run = true) :
    purge_set links candidates (some opts) exclude =
      ⟨keptScanGo opts.retention_count exclude [] candidates.reverse, links, [], []⟩ ∧
    purge_set links candidates none exclude =
      ⟨keptScanGo 1 exclude [] candidates.reverse, links, [], []⟩ := by
  obtain ⟨rc, dr⟩ := opts
  cases hdry
  rw [purge_set_default, purge_set_explicit, purge_set_explicit]
  simp [purgeLinks_dry]

/-- Witness for `c10_dry_run_is_pure` at a one-node spool with a stale
`oldest` symlink. -/
theorem c10_dry_run_is_pure_witness :
    (⟨3, true⟩ : PurgeOptions).dry_run = true ∧
    purge_set ⟨some "gone", none⟩ [⟨"/s/a/n1", "completed"⟩] (some ⟨3, true⟩) [] =
      ⟨[⟨"/s/a/n1", "completed"⟩], ⟨some "gone", none⟩, [], []⟩ := by
  refine ⟨rfl, ?_⟩
  have h := (c10_dry_run_is_pure ⟨some "gone", none⟩ [⟨"/s/a/n1", "completed"⟩] ⟨3, true⟩ [] rfl).1
  rw [h]
  decide

/-- The nodes left on disk after a `purge_set` call, in `iter_nodes`
(oldest-first) order. -/
def retainedNodes (r : PurgeResult) (candidates : List SNode) : List SNode :=
  candidates.filter (fun n => !(r.purged.contains n.path))

/-- The C1 claim as stated, specialized to one spool state (formalized
from the spec's words, for comparison with what `purge_set` does): after
a non-dry-run call, the number of completed nodes kept equals
`min R |completed ∪ excluded|`, and the `oldest`/`newest` symlinks point
at the oldest/newest retained node (both absent when nothing is
retained). -/
def specC1Check (links : SymlinkState) (candidates : List SNode) (R : Nat)
    (exclude : List String) : Bool :=
  let r := purge_set links candidates (some ⟨R, false⟩) exclude
  let retained := retainedNodes r candidates
  ((retained.filter (fun n => n.status == "completed")).length
      == min R ((candidates.filter
            (fun n => n.status == "completed" || exclude.contains n.path)).length)) &&
  (match retained with
   | [] => r.links.oldest == none && r.links.newest == none
   | k :: ks =>
     r.links.oldest == some (basename k.path) &&
     r.links.newest == some (basename ((k :: ks).getLastD k).path))

def purgeDemoCands : List SNode :=
  [⟨"/spool/alpha/n1", "completed"⟩, ⟨"/spool/alpha/n2", "completed"⟩,
   ⟨"/spool/alpha/n3", "failed"⟩]

/-- C1 counterexample: three nodes oldest-to-newest — `n1` and `n2`
completed, `n3` failed and excluded — purged with `retention_count = 2`.
The excluded failed node consumes a retention slot, so only one completed
node (`n2`) is kept where the claim demands `min(2, 3) = 2`; moreover the
`oldest` symlink is pointed at `n3`, the *newest* retained node, and
`newest` at `n2`, the oldest kept one, so the claim as stated fails. -/
theorem c1_claim_fails_on_excluded_slot :
    specC1Check ⟨none, none⟩ purgeDemoCands 2 ["/spool/alpha/n3"] = false ∧
    purge_set ⟨none, none⟩ purgeDemoCands (some ⟨2, false⟩) ["/spool/alpha/n3"] =
      ⟨[⟨"/spool/alpha/n3", "failed"⟩, ⟨"/spool/alpha/n2", "completed"⟩],
       ⟨some "n3", some "n2"⟩, ["/spool/alpha/n1"], ["/spool/alpha/n1"]⟩ := by
  decide

/-- The `kept_backups` scan with no exclusions keeps the first
`R - len(kept)` completed nodes of the remaining (newest-first) walk. -/
theorem keptScanGo_no_exclude (R : Nat) (kept l : List SNode) :
    keptScanGo R [] kept l =
      kept ++ (l.filter (fun n => n.status == "completed")).take (R - kept.length) := by
  induction l generalizing kept with
  | nil => simp [keptScanGo]
  | cons n rest ih =>
    show (if R ≤ kept.length then keptScanGo R [] kept rest
          else if n.status == "completed" then keptScanGo R [] (kept ++ [n]) rest
          else keptScanGo R [] kept rest) = _
    by_cases hR : R ≤ kept.length
    · rw [if_pos hR, ih]
      have h0 : R - kept.length = 0 := Nat.sub_eq_zero_of_le hR
      have h0' : R - (kept.length + 1) = 0 := by omega
      by_cases hc : n.status == "completed" <;>
        simp [List.filter_cons, hc, h0, h0']
    · rw [if_neg hR]
      by_cases hc : n.status == "completed"
      · rw [if_pos hc, ih]
        have hsplit : R - kept.length = (R - (kept.length + 1)) + 1 := by omega
        simp [List.filter_cons, hc, hsplit, List.take_succ_cons]
      · rw [if_neg hc, ih]
        simp [List.filter_cons, hc]

theorem head?_of_take_cons {α : Type} {R : Nat} {l : List α} {k : α} {ks : List α}
    (h : l.take R = k :: ks) : l.head? = some k := by
  cases l with
  | nil => simp at h
  | cons a l' =>
    cases R with
    | zero => simp at h
    | succ R' => simp only [List.take_succ_cons, List.cons.injEq] at h; simp [h.1]

/-- C1 amended: what a non-dry-run `purge_set` actually guarantees.  With
no exclusions the kept list is exactly the `R` newest completed nodes
(so `min(R, #completed)` completed nodes survive); the purged nodes are
exactly the candidates whose path is not among the kept ones; when
nothing is kept both symlinks are removed; when something is kept the
`oldest` symlink points at the *first* entry of the kept list — which is
the newest completed node — and `newest` at the last entry, the oldest
kept one; and excluded nodes are never purged.  (With exclusions, an
excluded node is appended to the kept list before the retention check —
twice when also completed under the cap — so exclusions consume retention
slots, as the counterexample shows.) -/
theorem c1_purge_set_code_behavior (links : SymlinkState) (candidates : List SNode) (R : Nat) :
    (purge_set links candidates (some ⟨R, false⟩) []).kept =
      ((candidates.filter (fun n => n.status == "completed")).reverse).take R ∧
    (purge_set links candidates (some ⟨R, false⟩) []).kept.length =
      min R (candidates.filter (fun n => n.status == "completed")).length ∧
    (purge_set links candidates (some ⟨R, false⟩) []).purged =
      (candidates.filter (fun n =>
        !((purge_set links candidates (some ⟨R, false⟩) []).kept.any
            (fun m => m.path == n.path)))).map (·.path) ∧
    ((purge_set links candidates (some ⟨R, false⟩) []).kept = [] →
      (purge_set links candidates (some ⟨R, false⟩) []).links = ⟨none, none⟩) ∧
    (∀ k0 ks, (purge_set links candidates (some ⟨R, false⟩) []).kept = k0 :: ks →
      (purge_set links candidates (some ⟨R, false⟩) []).links =
        ⟨some (basename k0.path), some (basename ((k0 :: ks).getLastD k0).path)⟩ ∧
      (candidates.filter (fun n => n.status == "completed")).getLast? = some k0) ∧
    (∀ exclude opts p, p ∈ (purge_set links candidates (some opts) exclude).purged →
      ¬ p ∈ exclude) := by
  have hscan : keptScanGo R [] [] candidates.reverse =
      ((candidates.filter (fun n => n.status == "completed")).reverse).take R := by
    rw [keptScanGo_no_exclude]
    simp [List.filter_reverse]
  rw [purge_set_explicit]
  simp only [if_neg (Bool.false_ne_true)]
  refine ⟨hscan, ?g2, ?g3, ?g4, ?g5, ?g6⟩
  case g2 =>
    rw [hscan]
    simp [List.length_take]
  case g3 =>
    simp only [purgeTargets]
    congr 1
  case g4 =>
    intro h
    rw [h]
    rfl
  case g5 =>
    intro k0 ks hk
    rw [hk]
    refine ⟨rfl, ?_⟩
    rw [hk] at hscan
    have hhead : ((candidates.filter (fun n => n.status == "completed")).reverse).head? =
        some k0 := head?_of_take_cons hscan.symm
    rwa [List.head?_reverse] at hhead
  case g6 =>
    intro exclude opts p hp
    obtain ⟨rc, dr⟩ := opts
    rw [purge_set_explicit] at hp
    cases dr with
    | true => simp at hp
    | false =>
      simp only [if_neg (Bool.false_ne_true), purgeTargets, List.mem_map,
        List.mem_filter] at hp
      obtain ⟨n, ⟨_, hcond⟩, rfl⟩ := hp
      simp only [Bool.and_eq_true, Bool.not_eq_true'] at hcond
      intro hmem
      rcases hcond with ⟨hc1, -⟩
      simp [List.contains, List.elem_eq_mem, hmem] at hc1

def purgeWitnessCands : List SNode :=
  [⟨"/s/a/n1", "completed"⟩, ⟨"/s/a/n2", "completed"⟩]

/-- Witness for `c1_purge_set_code_behavior`: two completed nodes,
`retention_count = 1`, no exclusions — the newest node is kept and both
symlinks point at it. -/
theorem c1_purge_set_code_behavior_witness :
    (purge_set ⟨none, none⟩ purgeWitnessCands (some ⟨1, false⟩) []).links =
      ⟨some (basename "/s/a/n2"), some (basename "/s/a/n2")⟩ ∧
    (purgeWitnessCands.filter (fun n => n.status == "completed")).getLast? =
      some ⟨"/s/a/n2", "completed"⟩ := by
  have h := (c1_purge_set_code_behavior ⟨none, none⟩ purgeWitnessCands 1).2.2.2.2.1
  have hk : (purge_set ⟨none, none⟩ purgeWitnessCands (some ⟨1, false⟩) []).kept =
      ⟨"/s/a/n2", "completed"⟩ :: [] := by decide
  have h2 := h ⟨"/s/a/n2", "completed"⟩ [] hk
  exact ⟨h2.1, h2.2⟩

/-! ## Hook dispatch and the backup lifecycle
(`holland/core/backup/hooks.py`, `holland/core/backup/util.py`)

`HookExecutor.event(name)` iterates over the bound hooks; each hook call
sits in a `try` whose handler logs the failure and immediately
`raise`s — re-raising the hook's exception and abandoning the rest of the
loop.

`execute_backup(context)` runs `plugin.bind`, opens the hook executor,
emits `initialize`, calls `plugin.setup()`, and then inside
`try/except/else/finally`: emits `before-backup`, calls
`plugin.dryrun()`/`plugin.backup()` with `backup.stop_time` set in an
inner `finally`; on any exception sets status `failed` and the message,
emits `failed-backup`, re-raises; on success sets status `completed` and
emits `completed-backup`; the outer `finally` emits `after-backup` and
calls `plugin.cleanup()` (an exception from a `finally` or from the
`failed-backup` emission replaces the in-flight exception, per Python
semantics). -/

/-- The lifecycle events dispatched through `HookExecutor.event`. -/
inductive Ev where
  | initEv
  | beforeBackup
  | completedBackup
  | failedBackup
  | afterBackup
deriving DecidableEq, Repr

/-- What one bound hook does when called for an event: return, or raise
the given exception. -/
inductive HookOutcome where
  | ok
  | raises (e : String)
deriving DecidableEq, Repr

/-- The source's `HookExecutor.event` over the bound hooks (outcomes for one event, in
priority order): returns the indices of the hooks actually invoked and
the exception propagated out of the dispatch loop, if any. -/
def dispatchEvent : Nat → List HookOutcome → List Nat × Option String
  | _, [] => ([], none)
  | i, .ok :: rest =>
    let (inv, e) := dispatchEvent (i + 1) rest
    (i :: inv, e)
  | i, .raises e :: _ => ([i], some e)

/-- The C4 claim at one hook list: every hook of the event is invoked and
no hook exception escapes the dispatch. -/
def specC4Check (hooks : List HookOutcome) : Bool :=
  dispatchEvent 0 hooks == (List.range hooks.length, none)

/-- Behaviour of the bound backup plugin: for each lifecycle method,
`none` = returns normally, `some e` = raises `e`. -/
structure PluginBehavior where
  setupExc : Option String
  backupExc : Option String
  dryrunExc : Option String
  cleanupExc : Option String

/-- Steps of `execute_backup` observable from outside. -/
inductive Act where
  | event (e : Ev)
  | setupCall
  | backupCall
  | dryrunCall
  | cleanupCall
deriving DecidableEq, Repr

/-- The mutable `backup` row fields `execute_backup` touches. -/
structure BackupState where
  status : String
  message : Option String
  stopTimeSet : Bool
deriving DecidableEq, Repr

def initialBackupState : BackupState := ⟨"initialized", none, false⟩

/-- The outer `finally` of `execute_backup`: emit `after-backup`, call
`plugin.cleanup()`; an exception from either replaces `pending`. -/
def executeFinally (p : PluginBehavior) (evExc : Ev → Option String)
    (tr : List Act) (st : BackupState) (pending : Option String) :
    List Act × BackupState × Option String :=
  let tr := tr ++ [Act.event .afterBackup]
  match evExc .afterBackup with
  | some e => (tr, st, some e)
  | none =>
    let tr := tr ++ [Act.cleanupCall]
    match p.cleanupExc with
    | some e => (tr, st, some e)
    | none => (tr, st, pending)

/-- The source's `execute_backup(context)`: the trace of events/calls, the final
backup-row state, and the exception propagated to the caller (if any).
`evExc ev` is the outcome of dispatching event `ev` to the bound hooks
(`none` when every hook returns, `some e` when the dispatch loop
re-raises a hook failure `e`). -/
def execute_backup (isDryrun : Bool) (p : PluginBehavior)
    (evExc : Ev → Option String) : List Act × BackupState × Option String :=
  let st := initialBackupState
  let tr := [Act.event .initEv]
  match evExc .initEv with
  | some e => (tr, st, some e)
  | none =>
    let tr := tr ++ [Act.setupCall]
    match p.setupExc with
    | some e => (tr, st, some e)
    | none =>
      let tr := tr ++ [Act.event .beforeBackup]
      match evExc .beforeBackup with
      | some e =>
        -- `before-backup` raised: inner try never entered, stop_time not set
        let st := { st with status := "failed", message := some e }
        let tr := tr ++ [Act.event .failedBackup]
        match evExc .failedBackup with
        | some e2 => executeFinally p evExc tr st (some e2)
        | none => executeFinally p evExc tr st (some e)
      | none =>
        let tr := tr ++ [if isDryrun then Act.dryrunCall else Act.backupCall]
        let pluginExc := if isDryrun then p.dryrunExc else p.backupExc
        let st := { st with stopTimeSet := true }
        match pluginExc with
        | some e =>
          let st := { st with status := "failed", message := some e }
          let tr := tr ++ [Act.event .failedBackup]
          match evExc .failedBackup with
          | some e2 => executeFinally p evExc tr st (some e2)
          | none => executeFinally p evExc tr st (some e)
        | none =>
          let st := { st with status := "completed" }
          let tr := tr ++ [Act.event .completedBackup]
          match evExc .completedBackup with
          | some e2 => executeFinally p evExc tr st (some e2)
          | none => executeFinally p evExc tr st none

/-- C3: when the hook dispatches themselves return normally and
`setup`/`cleanup` succeed, the events of one `execute_backup` run are
exactly `initialize`, `before-backup`, then `completed-backup` (plugin
call returned; status `completed`; no exception re-raised) or
`failed-backup` (plugin call raised `e`; status `failed`, message `e`,
`e` re-raised), then `after-backup` followed by `plugin.cleanup()`, with
`backup.stop_time` set in both cases. -/
theorem c3_lifecycle_event_order (isDryrun : Bool) (p : PluginBehavior)
    (evExc : Ev → Option String)
    (hev : ∀ ev, evExc ev = none)
    (hsetup : p.setupExc = none) (hcleanup : p.cleanupExc = none) :
    (∀ pluginCall pluginExc,
      pluginCall = (if isDryrun then Act.dryrunCall else Act.backupCall) →
      pluginExc = (if isDryrun then p.dryrunExc else p.backupExc) →
      (pluginExc = none →
        execute_backup isDryrun p evExc =
          ([Act.event .initEv, Act.setupCall, Act.event .beforeBackup, pluginCall,
            Act.event .completedBackup, Act.event .afterBackup, Act.cleanupCall],
           ⟨"completed", none, true⟩, none)) ∧
      (∀ e, pluginExc = some e →
        execute_backup isDryrun p evExc =
          ([Act.event .initEv, Act.setupCall, Act.event .beforeBackup, pluginCall,
            Act.event .failedBackup, Act.event .afterBackup, Act.cleanupCall],
           ⟨"failed", some e, true⟩, some e))) := by
  intro pluginCall pluginExc hcall hexc
  constructor
  · intro hnone
    unfold execute_backup executeFinally
    rw [hev .initEv, hsetup, hev .beforeBackup, ← hcall, ← hexc, hnone,
      hev .completedBackup, hev .afterBackup, hcleanup]
    rfl
  · intro e he
    unfold execute_backup executeFinally
    rw [hev .initEv, hsetup, hev .beforeBackup, ← hcall, ← hexc, he,
      hev .failedBackup, hev .afterBackup, hcleanup]
    rfl

/-- Witness for `c3_lifecycle_event_order`: a plugin whose `backup()`
raises `"disk on fire"` while every hook returns yields the
failed-backup trace with the exception re-raised. -/
theorem c3_lifecycle_event_order_witness :
    execute_backup false ⟨none, some "disk on fire", none, none⟩ (fun _ => none) =
      ([Act.event .initEv, Act.setupCall, Act.event .beforeBackup, Act.backupCall,
        Act.event .failedBackup, Act.event .afterBackup, Act.cleanupCall],
       ⟨"failed", some "disk on fire", true⟩, some "disk on fire") := by
  have h := ((c3_lifecycle_event_order false ⟨none, some "disk on fire", none, none⟩
      (fun _ => none) (fun _ => rfl) rfl rfl) Act.backupCall (some "disk on fire")
      rfl rfl).2 "disk on fire" rfl
  exact h

def c4DemoHooks : List HookOutcome := [.raises "hook boom", .ok]

/-- C4 counterexample: with two bound hooks where the first raises,
`HookExecutor.event` invokes only hook 0 — the `except` clause logs and
immediately `raise`s, so hook 1 is never dispatched and the hook's
exception escapes; moreover in `execute_backup`, when the plugin raised
`"orig"` and a `failed-backup` hook then raises `"hook boom"`, the
exception reaching the caller is `"hook boom"`, not the original backup
failure. -/
theorem c4_claim_fails_dispatch_stops :
    specC4Check c4DemoHooks = false ∧
    dispatchEvent 0 c4DemoHooks = ([0], some "hook boom") ∧
    (execute_backup false ⟨none, some "orig", none, none⟩
        (fun ev => if ev = .failedBackup then some "hook boom" else none)).2.2 =
      some "hook boom" := by
  exact ⟨rfl, rfl, rfl⟩

/-- C4 amended: a hook failure inside an event is logged and re-raised at
once: the hooks before the first failing one run, the failing hook's
exception propagates out of the dispatch, the remaining hooks of the
event are skipped, and in `execute_backup` a failing `failed-backup`
dispatch replaces the original backup-level exception. -/
theorem c4_event_dispatch_code_behavior :
    (∀ (pre post : List HookOutcome) (e : String) (i : Nat),
      (∀ h ∈ pre, h = .ok) →
      dispatchEvent i (pre ++ .raises e :: post) =
        (List.range' i (pre.length + 1), some e)) ∧
    (∀ (p : PluginBehavior) (evExc : Ev → Option String) (e1 e2 : String),
      p.setupExc = none → p.cleanupExc = none →
      evExc .initEv = none → evExc .beforeBackup = none →
      evExc .afterBackup = none → p.backupExc = some e1 →
      evExc .failedBackup = some e2 →
      (execute_backup false p evExc).2.2 = some e2) := by
  constructor
  · intro pre
    induction pre with
    | nil =>
      intro post e i _
      simp [dispatchEvent, List.range']
    | cons h rest ih =>
      intro post e i hpre
      have hh : h = .ok := hpre h (List.mem_cons_self h rest)
      subst hh
      have ihx := ih post e (i + 1) (fun x hx => hpre x (List.mem_cons_of_mem _ hx))
      show (i :: (dispatchEvent (i + 1) (rest ++ HookOutcome.raises e :: post)).1,
            (dispatchEvent (i + 1) (rest ++ HookOutcome.raises e :: post)).2) = _
      rw [ihx]
      simp [List.range'_succ]
  · intro p evExc e1 e2 hsetup hcleanup hinit hbefore hafter hbackup hfailed
    unfold execute_backup executeFinally
    rw [hinit, hsetup, hbefore]
    simp only [Bool.false_eq_true, if_false]
    rw [hbackup, hfailed, hafter, hcleanup]

/-- Witness for `c4_event_dispatch_code_behavior`: one well-behaved hook
followed by one raising hook dispatches exactly hooks 0 and 1 and
propagates the failure; a failing `failed-backup` dispatch replaces the
plugin's own exception. -/
theorem c4_event_dispatch_code_behavior_witness :
    dispatchEvent 0 ([HookOutcome.ok] ++ .raises "late hook" :: [.ok]) =
      ([0, 1], some "late hook") ∧
    (execute_backup false ⟨none, some "orig2", none, none⟩
        (fun ev => if ev = .failedBackup then some "replaced" else none)).2.2 =
      some "replaced" := by
  constructor
  · have h := c4_event_dispatch_code_behavior.1 [HookOutcome.ok] [.ok] "late hook" 0
      (by intro x hx; simpa using hx)
    simpa [List.range'] using h
  · exact c4_event_dispatch_code_behavior.2 ⟨none, some "orig2", none, none⟩
      (fun ev => if ev = .failedBackup then some "replaced" else none)
      "orig2" "replaced" rfl rfl rfl rfl rfl rfl rfl

/-! ## Spool locking (`holland/core/backup/spool.py`)

`BackupSpool.lock(namespace)` first consults the per-spool in-memory
`self.locked` dict and yields immediately when the namespace is already
held by this spool instance.  Otherwise it opens
`<root>/<namespace>/.holland/lock` and attempts a non-blocking exclusive
`flock`; on failure it reads the file's bytes (``'unknown'`` when empty)
and raises `SpoolLockError(os.path.join(self.path, namespace), pid)`; on
success it records the namespace in `self.locked`, truncates the file and
writes `str(os.getpid())`.

The lock file is modelled as the flock owner plus its byte content
(`none` = empty); `flock(LOCK_EX|LOCK_NB)` is the atomic step and fails
exactly when another process holds the lock. -/

structure LockFile where
  holder : Option Nat
  content : Option Nat
deriving DecidableEq, Repr

/-- One process's view of one `BackupSpool` instance. -/
structure SpoolProc where
  pid : Nat
  locked : List String
deriving DecidableEq, Repr

inductive LockOutcome where
  /-- the critical section is entered (`reentrant` when via `self.locked`) -/
  | entered (reentrant : Bool)
  /-- The source's `SpoolLockError(namespace_path, pid)` -/
  | lockError (nsPath : String) (pid : String)
deriving DecidableEq, Repr

/-- The source's `BackupSpool.lock`: outcome, resulting lock-file state, resulting
process state. -/
def spool_lock (spoolPath ns : String) (w : LockFile) (p : SpoolProc) :
    LockOutcome × LockFile × SpoolProc :=
  if p.locked.contains ns then (.entered true, w, p)
  else
    match w.holder with
    | some _ =>
      let pidStr := match w.content with | none => "unknown" | some q => toString q
      (.lockError (spoolPath ++ "/" ++ ns) pidStr, w, p)
    | none =>
      (.entered false, ⟨some p.pid, some p.pid⟩, { p with locked := ns :: p.locked })

/-- C5: starting from an unlocked backupset, in either serialization of
two controllers' `lock(ns)` calls the first caller enters the critical
section and the second fails with `SpoolLockError` carrying the first
caller's pid as read from the lock file (which the winner truncated and
overwrote with its own pid); within one process a second `lock(ns)` is
reentrant through the in-memory set and leaves the lock file untouched. -/
theorem c5_lock_mutual_exclusion (spoolPath ns : String) (A B : SpoolProc)
    (w : LockFile) (hfree : w.holder = none)
    (hA : ¬ ns ∈ A.locked) (hB : ¬ ns ∈ B.locked) :
    (spool_lock spoolPath ns w A).1 = .entered false ∧
    (spool_lock spoolPath ns (spool_lock spoolPath ns w A).2.1 B).1 =
      .lockError (spoolPath ++ "/" ++ ns) (toString A.pid) ∧
    (spool_lock spoolPath ns w B).1 = .entered false ∧
    (spool_lock spoolPath ns (spool_lock spoolPath ns w B).2.1 A).1 =
      .lockError (spoolPath ++ "/" ++ ns) (toString B.pid) ∧
    (spool_lock spoolPath ns w A).2.1 = ⟨some A.pid, some A.pid⟩ ∧
    spool_lock spoolPath ns (spool_lock spoolPath ns w A).2.1
        (spool_lock spoolPath ns w A).2.2 =
      (.entered true, ⟨some A.pid, some A.pid⟩,
       { A with locked := ns :: A.locked }) := by
  have hA2 : ns ∈ ({ A with locked := ns :: A.locked } : SpoolProc).locked :=
    List.mem_cons_self ns A.locked
  refine ⟨?_, ?_, ?_, ?_, ?_, ?_⟩ <;>
    simp [spool_lock, hfree, hA, hB, hA2]

/-- Witness for `c5_lock_mutual_exclusion` at pids 101/202 over an empty
lock file. -/
theorem c5_lock_mutual_exclusion_witness :
    (spool_lock "/spool" "alpha" ⟨none, none⟩ ⟨101, []⟩).1 = .entered false ∧
    (spool_lock "/spool" "alpha"
        (spool_lock "/spool" "alpha" ⟨none, none⟩ ⟨101, []⟩).2.1 ⟨202, []⟩).1 =
      .lockError "/spool/alpha" "101" := by
  have h := c5_lock_mutual_exclusion "/spool" "alpha" ⟨101, []⟩ ⟨202, []⟩
    ⟨none, none⟩ rfl (by simp) (by simp)
  exact ⟨h.1, h.2.1⟩

/-! ## Config merge and meld (`holland/core/config/config.py`)

A `Config` is an ordered dict whose values are either strings or nested
`Config` sections (`__setitem__` canonicalizes the key of a string value
through `optionxform`, replacing underscores by hyphens, and stores
sections under the unchanged key).  `merge(b)` walks `b`'s items: a
section is merged recursively into the existing section of the same key
(a fresh empty one is appended first when the key is new; a string under
that key is a `TypeError` type conflict), and a string value overwrites
(`self[key] = value`).  `meld(b)` walks the same way but an existing
entry always wins: a string from `b` is only inserted when the key is
absent.  Both mutate and return `self`; they compare equal by their
items, so a config is modelled as its item list and the `source`
provenance dict (which Python `==` ignores) is not modelled. -/

inductive CVal where
  | str : String → CVal
  | sec : List (String × CVal) → CVal

abbrev Items := List (String × CVal)

/-- The source's `Config.optionxform`: underscores canonicalize to hyphens. -/
def optionxform (s : String) : String :=
  ⟨s.data.map (fun c => if c = '_' then '-' else c)⟩

/-- Dict lookup on the ordered item list. -/
def lookupv (k : String) : Items → Option CVal
  | [] => none
  | (k', v) :: rest => if k' = k then some v else lookupv k rest

/-- The source's `self[key] = value` on the ordered item list: update in place, else
append. -/
def setv (k : String) (v : CVal) : Items → Items
  | [] => [(k, v)]
  | (k', v') :: rest => if k' = k then (k', v) :: rest else (k', v') :: setv k v rest

def keysOf (l : Items) : List String := l.map Prod.fst

/-- The source's `Config.merge`, item-list semantics (`TypeError` on a section from
`b` over a string in `self`). -/
def merge (self b : Items) : Except String Items :=
  match b with
  | [] => .ok self
  | (k, .str s) :: rest => merge (setv (optionxform k) (.str s) self) rest
  | (k, .sec bs) :: rest =>
    match lookupv k self with
    | some (.str _) => .error "value-namespace conflict"
    | some (.sec as) =>
      match merge as bs with
      | .error e => .error e
      | .ok m => merge (setv k (.sec m) self) rest
    | none =>
      match merge [] bs with
      | .error e => .error e
      | .ok m => merge (setv k (.sec m) self) rest
termination_by sizeOf b
decreasing_by all_goals (simp_wf <;> omega)

/-- The source's `Config.meld`, item-list semantics: existing entries win; a string
from `b` is inserted only when its key is absent. -/
def meld (self b : Items) : Except String Items :=
  match b with
  | [] => .ok self
  | (k, .str s) :: rest =>
    match lookupv k self with
    | some _ => meld self rest
    | none => meld (setv (optionxform k) (.str s) self) rest
  | (k, .sec bs) :: rest =>
    match lookupv k self with
    | some (.str _) => .error "value-namespace conflict"
    | some (.sec as) =>
      match meld as bs with
      | .error e => .error e
      | .ok m => meld (setv k (.sec m) self) rest
    | none =>
      match meld [] bs with
      | .error e => .error e
      | .ok m => meld (setv k (.sec m) self) rest
termination_by sizeOf b
decreasing_by all_goals (simp_wf <;> omega)

/-- Well-formedness of every config reachable through the `Config` API:
keys are unique at each level and (since `__setitem__` pipes every
string-valued key through `optionxform`) string-valued keys are
canonical. -/
def wfItems : Items → Bool
  | [] => true
  | (k, v) :: rest =>
    !((keysOf rest).contains k) &&
    (match v with
     | .str _ => optionxform k == k
     | .sec items => wfItems items) &&
    wfItems rest
termination_by l => sizeOf l
decreasing_by all_goals (simp_wf <;> omega)

example : merge [("a", .str "1")] [("a", .str "2"), ("b", .sec [])] =
    .ok [("a", .str "2"), ("b", .sec [])] := by
  simp [merge, setv, lookupv, optionxform]

theorem lookupv_nil (k : String) : lookupv k [] = none := rfl

theorem lookupv_cons (k k' : String) (v : CVal) (rest : Items) :
    lookupv k ((k', v) :: rest) = if k' = k then some v else lookupv k rest := rfl

theorem lookupv_setv_self (k : String) (v : CVal) (l : Items) :
    lookupv k (setv k v l) = some v := by
  induction l with
  | nil => simp [setv, lookupv]
  | cons e rest ih =>
    obtain ⟨k', v'⟩ := e
    by_cases h : k' = k <;> simp [setv, lookupv, h, ih]

theorem lookupv_setv_ne (k k' : String) (v : CVal) (l : Items) (h : k' ≠ k) :
    lookupv k' (setv k v l) = lookupv k' l := by
  induction l with
  | nil => simp [setv, lookupv, Ne.symm h]
  | cons e rest ih =>
    obtain ⟨k0, v0⟩ := e
    by_cases h0 : k0 = k <;> by_cases h1 : k0 = k' <;>
      simp_all [setv, lookupv]

theorem keysOf_setv_of_mem (k : String) (v : CVal) (l : Items) (h : k ∈ keysOf l) :
    keysOf (setv k v l) = keysOf l := by
  induction l with
  | nil => simp [keysOf] at h
  | cons e rest ih =>
    obtain ⟨k0, v0⟩ := e
    by_cases h0 : k0 = k
    · simp [setv, h0, keysOf]
    · have hrest : k ∈ keysOf rest := by
        simp only [keysOf, List.map_cons, List.mem_cons] at h
        rcases h with h | h
        · exact absurd h.symm h0
        · exact h
      rw [setv, if_neg h0]
      have := ih hrest
      simp only [keysOf, List.map_cons] at this ⊢
      rw [this]

theorem setv_of_not_mem (k : String) (v : CVal) (l : Items) (h : ¬ k ∈ keysOf l) :
    setv k v l = l ++ [(k, v)] := by
  induction l with
  | nil => simp [setv]
  | cons e rest ih =>
    obtain ⟨k0, v0⟩ := e
    have h0 : k0 ≠ k := by
      intro hh
      exact h (by simp [keysOf, hh])
    have : ¬ k ∈ keysOf rest := fun hh => h (by simp [keysOf] at hh ⊢; exact .inr hh)
    simp [setv, h0, ih this]

theorem lookupv_eq_none_of_not_mem (k : String) (l : Items) (h : ¬ k ∈ keysOf l) :
    lookupv k l = none := by
  induction l with
  | nil => rfl
  | cons e rest ih =>
    obtain ⟨k0, v0⟩ := e
    have h0 : k0 ≠ k := fun hh => h (by simp [keysOf, hh])
    have : ¬ k ∈ keysOf rest := fun hh => h (by simp [keysOf] at hh ⊢; exact .inr hh)
    simp [lookupv, h0, ih this]

theorem mem_of_lookupv_some (k : String) (v : CVal) (l : Items)
    (h : lookupv k l = some v) : k ∈ keysOf l ∧ (k, v) ∈ l := by
  induction l with
  | nil => simp [lookupv] at h
  | cons e rest ih =>
    obtain ⟨k0, v0⟩ := e
    by_cases h0 : k0 = k
    · subst h0
      simp [lookupv] at h
      subst h
      simp [keysOf]
    · simp [lookupv, h0] at h
      obtain ⟨h1, h2⟩ := ih h
      refine ⟨?_, List.mem_cons_of_mem _ h2⟩
      simp only [keysOf, List.map_cons, List.mem_cons]
      exact .inr h1

theorem lookupv_ne_none_of_mem (k : String) (l : Items) :
    k ∈ keysOf l → lookupv k l ≠ none := by
  induction l with
  | nil => intro h; simp [keysOf] at h
  | cons e rest ih =>
    obtain ⟨k0, v0⟩ := e
    intro h hc
    by_cases h0 : k0 = k
    · simp [lookupv, h0] at hc
    · simp only [lookupv, if_neg h0] at hc
      have : k ∈ keysOf rest := by
        simp only [keysOf, List.map_cons, List.mem_cons] at h
        rcases h with h | h
        · exact absurd h.symm h0
        · exact h
      exact ih this hc

theorem sizeOf_lookupv (k : String) (v : CVal) (l : Items)
    (h : lookupv k l = some v) : sizeOf v < sizeOf l := by
  induction l with
  | nil => simp [lookupv] at h
  | cons e rest ih =>
    obtain ⟨k0, v0⟩ := e
    by_cases h0 : k0 = k
    · simp [lookupv, h0] at h
      subst h
      simp
      omega
    · simp [lookupv, h0] at h
      have := ih h
      simp
      omega

/-- Two dict item lists with the same (duplicate-free) key sequence and
the same lookups are equal. -/
theorem items_ext (l1 l2 : Items) (hk : keysOf l1 = keysOf l2)
    (hn : (keysOf l1).Nodup) (h : ∀ k, lookupv k l1 = lookupv k l2) : l1 = l2 := by
  induction l1 generalizing l2 with
  | nil =>
    cases l2 with
    | nil => rfl
    | cons e rest => simp [keysOf] at hk
  | cons e rest ih =>
    obtain ⟨k0, v0⟩ := e
    cases l2 with
    | nil => simp [keysOf] at hk
    | cons e2 rest2 =>
      obtain ⟨k2, v2⟩ := e2
      simp only [keysOf, List.map_cons, List.cons.injEq] at hk
      obtain ⟨rfl, hkrest⟩ := hk
      have hv : v0 = v2 := by
        have := h k0
        simp [lookupv] at this
        exact this
      subst hv
      simp only [keysOf, List.map_cons, List.nodup_cons] at hn
      obtain ⟨hn0, hn1⟩ := hn
      refine congrArg _ (ih rest2 hkrest hn1 ?_)
      intro k
      by_cases hk0 : k0 = k
      · subst hk0
        rw [lookupv_eq_none_of_not_mem _ _ hn0,
          lookupv_eq_none_of_not_mem _ _ (by
            have h2 : k0 ∉ List.map Prod.fst rest2 := hkrest ▸ hn0
            exact h2)]
      · have := h k
        simpa [lookupv, hk0] using this

theorem keysOf_nil : keysOf [] = [] := rfl

theorem keysOf_cons (k : String) (v : CVal) (rest : Items) :
    keysOf ((k, v) :: rest) = k :: keysOf rest := rfl

theorem wf_cons (k : String) (v : CVal) (rest : Items) :
    wfItems ((k, v) :: rest) = true ↔
      ¬ k ∈ keysOf rest ∧
      (match v with
       | .str _ => optionxform k = k
       | .sec items => wfItems items = true) ∧
      wfItems rest = true := by
  have hunf : wfItems ((k, v) :: rest) =
      (!((keysOf rest).contains k) &&
       (match v with
        | .str _ => optionxform k == k
        | .sec items => wfItems items) &&
       wfItems rest) := by
    conv_lhs => rw [wfItems.eq_def]
  rw [hunf]
  simp only [Bool.and_eq_true, Bool.not_eq_true']
  constructor
  · rintro ⟨⟨h1, h2⟩, h3⟩
    refine ⟨by simpa using h1, ?_, h3⟩
    cases v with
    | str s => simpa using h2
    | sec items => exact h2
  · rintro ⟨h1, h2, h3⟩
    refine ⟨⟨by simpa using h1, ?_⟩, h3⟩
    cases v with
    | str s => simpa using h2
    | sec items => exact h2

theorem wf_str_canon (k : String) (s : String) (rest : Items)
    (h : wfItems ((k, .str s) :: rest) = true) : optionxform k = k :=
  ((wf_cons _ _ _).mp h).2.1

theorem wf_sec_inner (k : String) (bs : Items) (rest : Items)
    (h : wfItems ((k, .sec bs) :: rest) = true) : wfItems bs = true :=
  ((wf_cons _ _ _).mp h).2.1

theorem wf_head_not_mem (k : String) (v : CVal) (rest : Items)
    (h : wfItems ((k, v) :: rest) = true) : ¬ k ∈ keysOf rest :=
  ((wf_cons _ _ _).mp h).1

theorem wf_tail (k : String) (v : CVal) (rest : Items)
    (h : wfItems ((k, v) :: rest) = true) : wfItems rest = true :=
  ((wf_cons _ _ _).mp h).2.2

theorem wf_nodup (l : Items) (h : wfItems l = true) : (keysOf l).Nodup := by
  induction l with
  | nil => simp [keysOf]
  | cons e rest ih =>
    obtain ⟨k, v⟩ := e
    rw [keysOf_cons, List.nodup_cons]
    exact ⟨wf_head_not_mem _ _ _ h, ih (wf_tail _ _ _ h)⟩

theorem wf_lookup_sec (l : Items) (k : String) (items : Items)
    (hw : wfItems l = true) (h : lookupv k l = some (.sec items)) :
    wfItems items = true := by
  induction l with
  | nil => simp [lookupv] at h
  | cons e rest ih =>
    obtain ⟨k0, v0⟩ := e
    by_cases h0 : k0 = k
    · simp only [lookupv, if_pos h0] at h
      obtain rfl : v0 = .sec items := by injection h
      exact wf_sec_inner _ _ _ hw
    · simp only [lookupv, if_neg h0] at h
      exact ih (wf_tail _ _ _ hw) h

theorem wf_lookup_str_canon (l : Items) (k s : String)
    (hw : wfItems l = true) (h : lookupv k l = some (.str s)) :
    optionxform k = k := by
  induction l with
  | nil => simp [lookupv] at h
  | cons e rest ih =>
    obtain ⟨k0, v0⟩ := e
    by_cases h0 : k0 = k
    · simp only [lookupv, if_pos h0] at h
      obtain rfl : v0 = .str s := by injection h
      exact h0 ▸ wf_str_canon _ _ _ hw
    · simp only [lookupv, if_neg h0] at h
      exact ih (wf_tail _ _ _ hw) h

theorem helperA (K ks : List String) (k : String) (hm : k ∈ K) :
    K ++ ks.filter (fun x => !decide (x ∈ K)) =
      K ++ (k :: ks).filter (fun x => !decide (x ∈ K)) := by
  simp [List.filter_cons, hm]

theorem helperB (K ks : List String) (k : String) (hm : ¬ k ∈ K) (hk : ¬ k ∈ ks) :
    (K ++ [k]) ++ ks.filter (fun x => !decide (x ∈ K ++ [k])) =
      K ++ (k :: ks).filter (fun x => !decide (x ∈ K)) := by
  rw [List.filter_cons]
  simp only [hm, decide_False, Bool.not_false, if_pos]
  rw [List.append_assoc]
  congr 1
  rw [List.singleton_append]
  congr 1
  apply List.filter_congr
  intro x hx
  have hxk : x ≠ k := fun hh => hk (hh ▸ hx)
  simp [List.mem_append, hxk]

/-- Key sequence of a successful merge: the keys of `self` in place,
then the new keys of `b` in `b`'s order. -/
theorem merge_keys (b : Items) : ∀ self c, wfItems b = true →
    merge self b = .ok c →
    keysOf c = keysOf self ++ (keysOf b).filter (fun x => !decide (x ∈ keysOf self)) := by
  induction b with
  | nil =>
    intro self c _ h
    simp only [merge] at h
    cases h
    simp [keysOf]
  | cons e rest ih =>
    obtain ⟨k, v⟩ := e
    intro self c hwf h
    have hk1 := wf_head_not_mem _ _ _ hwf
    have hk3 := wf_tail _ _ _ hwf
    cases v with
    | str s =>
      have hcanon : optionxform k = k := wf_str_canon _ _ _ hwf
      simp only [merge, hcanon] at h
      have hkeys := ih (setv k (.str s) self) c hk3 h
      rw [hkeys, keysOf_cons]
      by_cases hm : k ∈ keysOf self
      · rw [keysOf_setv_of_mem _ _ _ hm]
        exact helperA _ _ _ hm
      · rw [setv_of_not_mem _ _ _ hm, keysOf, List.map_append]
        exact helperB (keysOf self) (keysOf rest) k hm hk1
    | sec bs =>
      simp only [merge] at h
      rcases hl : lookupv k self with _ | ⟨_ | as⟩ <;> simp only [hl] at h
      · rcases hin : merge [] bs with e' | m <;> simp only [hin] at h
        · exact Except.noConfusion h
        · have hm : ¬ k ∈ keysOf self := by
            intro hc
            exact lookupv_ne_none_of_mem _ _ hc hl
          have hkeys := ih (setv k (.sec m) self) c hk3 h
          rw [hkeys, keysOf_cons, setv_of_not_mem _ _ _ hm, keysOf, List.map_append]
          exact helperB (keysOf self) (keysOf rest) k hm hk1
      · exact Except.noConfusion h
      · rcases hin : merge as bs with e' | m <;> simp only [hin] at h
        · exact Except.noConfusion h
        · have hm : k ∈ keysOf self := (mem_of_lookupv_some _ _ _ hl).1
          have hkeys := ih (setv k (.sec m) self) c hk3 h
          rw [hkeys, keysOf_cons, keysOf_setv_of_mem _ _ _ hm]
          exact helperA _ _ _ hm

/-- Pointwise relationship between the lookups of `self`, `b`, and of a
successful `merge self b`. -/
inductive MergeRel : Option CVal → Option CVal → Option CVal → Prop where
  | keep (x : Option CVal) : MergeRel x none x
  | overwrite (x : Option CVal) (s : String) : MergeRel x (some (.str s)) (some (.str s))
  | secNew (y z : Items) : merge [] y = .ok z → MergeRel none (some (.sec y)) (some (.sec z))
  | secMerge (x y z : Items) : merge x y = .ok z →
      MergeRel (some (.sec x)) (some (.sec y)) (some (.sec z))

theorem MergeRel_none_invert (x z : Option CVal) (h : MergeRel x none z) : z = x := by
  cases h
  rfl

theorem merge_lookup (b : Items) : ∀ self c, wfItems b = true →
    merge self b = .ok c →
    ∀ q, MergeRel (lookupv q self) (lookupv q b) (lookupv q c) := by
  induction b with
  | nil =>
    intro self c _ h q
    simp only [merge] at h
    cases h
    exact .keep _
  | cons e rest ih =>
    obtain ⟨k, v⟩ := e
    intro self c hwf h q
    have hk1 := wf_head_not_mem _ _ _ hwf
    have hk3 := wf_tail _ _ _ hwf
    cases v with
    | str s =>
      have hcanon := wf_str_canon _ _ _ hwf
      simp only [merge, hcanon] at h
      have hrel := ih (setv k (.str s) self) c hk3 h
      by_cases hq : k = q
      · subst hq
        have h1 := hrel k
        rw [lookupv_setv_self, lookupv_eq_none_of_not_mem _ _ hk1] at h1
        have hc := MergeRel_none_invert _ _ h1
        rw [lookupv_cons, if_pos rfl, hc]
        exact .overwrite _ _
      · have h1 := hrel q
        rw [lookupv_setv_ne _ _ _ _ (fun hh => hq hh.symm)] at h1
        rw [lookupv_cons, if_neg hq]
        exact h1
    | sec bs =>
      simp only [merge] at h
      rcases hl : lookupv k self with _ | ⟨_ | as⟩ <;> simp only [hl] at h
      · rcases hin : merge [] bs with e' | m <;> simp only [hin] at h
        · exact Except.noConfusion h
        · have hrel := ih (setv k (.sec m) self) c hk3 h
          by_cases hq : k = q
          · subst hq
            have h1 := hrel k
            rw [lookupv_setv_self, lookupv_eq_none_of_not_mem _ _ hk1] at h1
            have hc := MergeRel_none_invert _ _ h1
            rw [lookupv_cons, if_pos rfl, hc, hl]
            exact .secNew _ _ hin
          · have h1 := hrel q
            rw [lookupv_setv_ne _ _ _ _ (fun hh => hq hh.symm)] at h1
            rw [lookupv_cons, if_neg hq]
            exact h1
      · exact Except.noConfusion h
      · rcases hin : merge as bs with e' | m <;> simp only [hin] at h
        · exact Except.noConfusion h
        · have hrel := ih (setv k (.sec m) self) c hk3 h
          by_cases hq : k = q
          · subst hq
            have h1 := hrel k
            rw [lookupv_setv_self, lookupv_eq_none_of_not_mem _ _ hk1] at h1
            have hc := MergeRel_none_invert _ _ h1
            rw [lookupv_cons, if_pos rfl, hc, hl]
            exact .secMerge _ _ _ hin
          · have h1 := hrel q
            rw [lookupv_setv_ne _ _ _ _ (fun hh => hq hh.symm)] at h1
            rw [lookupv_cons, if_neg hq]
            exact h1

/-- Absence of `value-namespace conflict`s of `b` against `a`,
recursively: no section entry of `b` sits on a string entry of `a`. -/
def compatB (a : Items) (b : Items) : Bool :=
  match b with
  | [] => true
  | (_, .str _) :: rest => compatB a rest
  | (k, .sec bs) :: rest =>
    (match lookupv k a with
     | some (.str _) => false
     | some (.sec as) => compatB as bs
     | none => true) && compatB a rest
termination_by sizeOf b
decreasing_by all_goals (simp_wf <;> omega)

theorem sizeOf_items_pos (l : Items) : 1 ≤ sizeOf l := by
  cases l <;> simp <;> omega

theorem merge_nil (x : Items) : merge x [] = .ok x := by
  simp [merge]

theorem compat_setv (rest : Items) : ∀ (a : Items) (k : String) (v : CVal),
    ¬ k ∈ keysOf rest → compatB (setv k v a) rest = compatB a rest := by
  induction rest with
  | nil => intro a k v _; simp [compatB]
  | cons e rrest ih =>
    obtain ⟨k0, v0⟩ := e
    intro a k v hk
    have hk0 : k0 ≠ k := by
      intro hh
      exact hk (by simp [keysOf, hh])
    have hkr : ¬ k ∈ keysOf rrest := by
      intro hh
      refine hk ?_
      simp only [keysOf, List.map_cons, List.mem_cons]
      exact .inr hh
    cases v0 with
    | str s =>
      simp only [compatB]
      exact ih a k v hkr
    | sec bs =>
      simp only [compatB]
      rw [lookupv_setv_ne _ _ _ _ hk0, ih a k v hkr]

theorem compat_nil_left (bs : Items) : compatB [] bs = true := by
  induction bs with
  | nil => simp [compatB]
  | cons e rest ih =>
    obtain ⟨k, v⟩ := e
    cases v with
    | str s =>
      simp only [compatB]
      exact ih
    | sec bs' =>
      simp only [compatB, lookupv_nil, Bool.true_and]
      exact ih

/-- A successful merge exists whenever `b` is conflict-free against
`a`. -/
theorem merge_ok_of_compat : ∀ (n : Nat) (b a : Items), sizeOf b ≤ n →
    wfItems b = true → compatB a b = true → ∃ c, merge a b = .ok c := by
  intro n
  induction n with
  | zero =>
    intro b a hb
    have := sizeOf_items_pos b
    omega
  | succ n ih =>
    intro b a hb hwf hcompat
    match b with
    | [] => exact ⟨a, merge_nil a⟩
    | (k, .str s) :: rest =>
      have hk1 := wf_head_not_mem _ _ _ hwf
      have hcanon := wf_str_canon _ _ _ hwf
      have hc1 : compatB a rest = true := by
        simpa only [compatB] using hcompat
      have hc2 : compatB (setv (optionxform k) (.str s) a) rest = true := by
        rw [hcanon, compat_setv _ _ _ _ hk1]
        exact hc1
      have hsz : sizeOf rest ≤ n := by
        simp at hb
        omega
      obtain ⟨c, hc⟩ := ih rest (setv (optionxform k) (.str s) a) hsz
        (wf_tail _ _ _ hwf) hc2
      exact ⟨c, by simp only [merge]; exact hc⟩
    | (k, .sec bs) :: rest =>
      have hk1 := wf_head_not_mem _ _ _ hwf
      have hszr : sizeOf rest ≤ n := by simp at hb; omega
      have hszb : sizeOf bs ≤ n := by simp at hb; omega
      rcases hl : lookupv k a with _ | ⟨_ | as⟩ <;>
        simp only [compatB, hl, Bool.and_eq_true] at hcompat
      · obtain ⟨m, hm⟩ := ih bs [] hszb (wf_sec_inner _ _ _ hwf) (compat_nil_left bs)
        have hc2 : compatB (setv k (.sec m) a) rest = true := by
          rw [compat_setv _ _ _ _ hk1]
          exact hcompat.2
        obtain ⟨c, hc⟩ := ih rest (setv k (.sec m) a) hszr (wf_tail _ _ _ hwf) hc2
        exact ⟨c, by simp only [merge, hl, hm]; exact hc⟩
      · simp at hcompat
      · obtain ⟨m, hm⟩ := ih bs as hszb (wf_sec_inner _ _ _ hwf) hcompat.1
        have hc2 : compatB (setv k (.sec m) a) rest = true := by
          rw [compat_setv _ _ _ _ hk1]
          exact hcompat.2
        obtain ⟨c, hc⟩ := ih rest (setv k (.sec m) a) hszr (wf_tail _ _ _ hwf) hc2
        exact ⟨c, by simp only [merge, hl, hm]; exact hc⟩

theorem MergeRel_invert (x y z : Option CVal) (h : MergeRel x y z) :
    (y = none ∧ z = x) ∨
    (∃ s, y = some (.str s) ∧ z = some (.str s)) ∨
    (∃ ys zs, y = some (.sec ys) ∧ z = some (.sec zs) ∧ x = none ∧
      merge [] ys = .ok zs) ∨
    (∃ xs ys zs, x = some (.sec xs) ∧ y = some (.sec ys) ∧ z = some (.sec zs) ∧
      merge xs ys = .ok zs) := by
  cases h with
  | keep _ => exact .inl ⟨rfl, rfl⟩
  | overwrite _ s => exact .inr (.inl ⟨s, rfl, rfl⟩)
  | secNew y z hm => exact .inr (.inr (.inl ⟨y, z, rfl, rfl, rfl, hm⟩))
  | secMerge x y z hm => exact .inr (.inr (.inr ⟨x, y, z, rfl, rfl, rfl, hm⟩))

theorem wf_of_pointwise (t : Items) : (keysOf t).Nodup →
    (∀ k s, lookupv k t = some (.str s) → optionxform k = k) →
    (∀ k bs, lookupv k t = some (.sec bs) → wfItems bs = true) →
    wfItems t = true := by
  induction t with
  | nil => intro _ _ _; simp [wfItems]
  | cons e rest ih =>
    obtain ⟨k, v⟩ := e
    intro hn hstr hsec
    rw [keysOf_cons, List.nodup_cons] at hn
    rw [wf_cons]
    refine ⟨hn.1, ?_, ?_⟩
    · cases v with
      | str s => exact hstr k s (by simp [lookupv])
      | sec bs => exact hsec k bs (by simp [lookupv])
    · refine ih hn.2 ?_ ?_
      · intro k' s' hl
        have hk' : k' ∈ keysOf rest := (mem_of_lookupv_some _ _ _ hl).1
        have hne : k ≠ k' := fun hh => hn.1 (hh ▸ hk')
        exact hstr k' s' (by rw [lookupv_cons, if_neg hne]; exact hl)
      · intro k' bs' hl
        have hk' : k' ∈ keysOf rest := (mem_of_lookupv_some _ _ _ hl).1
        have hne : k ≠ k' := fun hh => hn.1 (hh ▸ hk')
        exact hsec k' bs' (by rw [lookupv_cons, if_neg hne]; exact hl)

/-- A successful merge of well-formed configs is well-formed. -/
theorem wf_merge : ∀ (n : Nat) (a b c : Items), sizeOf a + sizeOf b ≤ n →
    wfItems a = true → wfItems b = true → merge a b = .ok c →
    wfItems c = true := by
  intro n
  induction n with
  | zero =>
    intro a b c hn
    have := sizeOf_items_pos a
    have := sizeOf_items_pos b
    omega
  | succ n ih =>
    intro a b c hn hwa hwb h
    have hkeys := merge_keys b a c hwb h
    have hnodup : (keysOf c).Nodup := by
      rw [hkeys]
      refine List.Nodup.append (wf_nodup _ hwa) ((wf_nodup _ hwb).filter _) ?_
      intro x hx1 hx2
      have := List.of_mem_filter hx2
      simp at this
      exact this hx1
    refine wf_of_pointwise c hnodup ?_ ?_
    · intro k s hl
      have hrel := merge_lookup b a c hwb h k
      rw [hl] at hrel
      rcases MergeRel_invert _ _ _ hrel with ⟨hy, hz⟩ | ⟨s', hy, hz⟩ |
        ⟨ys, zs, hy, hz, hx, hm⟩ | ⟨xs, ys, zs, hx, hy, hz, hm⟩
      · exact wf_lookup_str_canon a k s hwa hz.symm
      · obtain rfl : s' = s := by injection hz.symm with h2; injection h2
        exact wf_lookup_str_canon b k s' hwb hy
      · exact absurd hz (by simp)
      · exact absurd hz (by simp)
    · intro k bs hl
      have hrel := merge_lookup b a c hwb h k
      rw [hl] at hrel
      rcases MergeRel_invert _ _ _ hrel with ⟨hy, hz⟩ | ⟨s', hy, hz⟩ |
        ⟨ys, zs, hy, hz, hx, hm⟩ | ⟨xs, ys, zs, hx, hy, hz, hm⟩
      · exact wf_lookup_sec a k bs hwa hz.symm
      · exact absurd hz (by simp)
      · obtain rfl : zs = bs := by injection hz.symm with h2; injection h2
        have hwy : wfItems ys = true := wf_lookup_sec b k ys hwb hy
        have hsy : sizeOf ys < sizeOf b := by
          have h3 := sizeOf_lookupv _ _ _ hy
          simp at h3
          omega
        have hsa := sizeOf_items_pos a
        exact ih [] ys zs (by simp; omega) (by simp [wfItems]) hwy hm
      · obtain rfl : zs = bs := by injection hz.symm with h2; injection h2
        have hwx := wf_lookup_sec a k xs hwa hx
        have hwy := wf_lookup_sec b k ys hwb hy
        have hsx : sizeOf xs < sizeOf a := by
          have h3 := sizeOf_lookupv _ _ _ hx
          simp at h3
          omega
        have hsy : sizeOf ys < sizeOf b := by
          have h3 := sizeOf_lookupv _ _ _ hy
          simp at h3
          omega
        exact ih xs ys zs (by omega) hwx hwy hm

theorem compat_of_pointwise (t : Items) : ∀ (a : Items), (keysOf t).Nodup →
    (∀ k bs, lookupv k t = some (.sec bs) →
      lookupv k a = none ∨ ∃ as, lookupv k a = some (.sec as) ∧ compatB as bs = true) →
    compatB a t = true := by
  induction t with
  | nil => intro a _ _; simp [compatB]
  | cons e rest ih =>
    obtain ⟨k, v⟩ := e
    intro a hn hsec
    rw [keysOf_cons, List.nodup_cons] at hn
    have hrest : compatB a rest = true := by
      refine ih a hn.2 ?_
      intro k' bs' hl
      have hk' : k' ∈ keysOf rest := (mem_of_lookupv_some _ _ _ hl).1
      have hne : k ≠ k' := fun hh => hn.1 (hh ▸ hk')
      exact hsec k' bs' (by rw [lookupv_cons, if_neg hne]; exact hl)
    cases v with
    | str s =>
      simp only [compatB]
      exact hrest
    | sec bs =>
      have hme := hsec k bs (by simp [lookupv])
      simp only [compatB, Bool.and_eq_true]
      refine ⟨?_, hrest⟩
      rcases hme with hnone | ⟨as, has, hcas⟩
      · rw [hnone]
      · rw [has]
        exact hcas

/-- The output of a successful merge of well-formed configs is
conflict-free against the left input. -/
theorem compat_merge_out : ∀ (n : Nat) (x y z : Items), sizeOf x + sizeOf y ≤ n →
    wfItems x = true → wfItems y = true → merge x y = .ok z →
    compatB x z = true := by
  intro n
  induction n with
  | zero =>
    intro x y z hn
    have := sizeOf_items_pos x
    have := sizeOf_items_pos y
    omega
  | succ n ih =>
    intro x y z hn hwx hwy h
    have hwz : wfItems z = true := wf_merge (sizeOf x + sizeOf y) x y z (le_refl _) hwx hwy h
    refine compat_of_pointwise z x (wf_nodup _ hwz) ?_
    intro k bs hl
    have hrel := merge_lookup y x z hwy h k
    rw [hl] at hrel
    rcases MergeRel_invert _ _ _ hrel with ⟨hy', hz⟩ | ⟨s', hy', hz⟩ |
      ⟨ys, zs, hy', hz, hx', hm⟩ | ⟨xs, ys, zs, hx', hy', hz, hm⟩
    · have hx2 : lookupv k x = some (.sec bs) := hz.symm
      refine .inr ⟨bs, hx2, ?_⟩
      have hsb : sizeOf bs < sizeOf x := by
        have h3 := sizeOf_lookupv _ _ _ hx2
        simp at h3
        omega
      have hyp := sizeOf_items_pos y
      exact ih bs [] bs (by simp; omega) (wf_lookup_sec x k bs hwx hx2)
        (by simp [wfItems]) (merge_nil bs)
    · exact absurd hz (by simp)
    · exact .inl hx'
    · obtain rfl : zs = bs := by injection hz.symm with h2; injection h2
      refine .inr ⟨xs, hx', ?_⟩
      have hsx : sizeOf xs < sizeOf x := by
        have h3 := sizeOf_lookupv _ _ _ hx'
        simp at h3
        omega
      have hsy : sizeOf ys < sizeOf y := by
        have h3 := sizeOf_lookupv _ _ _ hy'
        simp at h3
        omega
      exact ih xs ys zs (by omega) (wf_lookup_sec x k xs hwx hx')
        (wf_lookup_sec y k ys hwy hy') hm

/-- Idempotence of merge: merging the result of `merge a b` into `a`
again reproduces it. -/
theorem merge_idem_aux : ∀ (n : Nat) (a b c : Items), sizeOf a + sizeOf b ≤ n →
    wfItems a = true → wfItems b = true → merge a b = .ok c →
    merge a c = .ok c := by
  intro n
  induction n with
  | zero =>
    intro a b c hn
    have := sizeOf_items_pos a
    have := sizeOf_items_pos b
    omega
  | succ n ih =>
    intro a b c hn hwa hwb h
    have hwc : wfItems c = true := wf_merge _ a b c (le_refl _) hwa hwb h
    have hcompat : compatB a c = true := compat_merge_out _ a b c (le_refl _) hwa hwb h
    obtain ⟨out, hout⟩ := merge_ok_of_compat (sizeOf c) c a (le_refl _) hwc hcompat
    suffices hoc : out = c by rw [hout, hoc]
    have hposa := sizeOf_items_pos a
    have hposb := sizeOf_items_pos b
    have hself : ∀ xs, sizeOf xs < sizeOf a → wfItems xs = true →
        merge xs xs = .ok xs := by
      intro xs hs hw
      exact ih xs [] xs (by simp; omega) hw (by simp [wfItems]) (merge_nil xs)
    -- key sequences agree
    have hk1 := merge_keys b a c hwb h
    have hk2 := merge_keys c a out hwc hout
    have hkeq : keysOf out = keysOf c := by
      rw [hk2]
      conv_rhs => rw [hk1]
      congr 1
      rw [hk1, List.filter_append]
      have hfa : (keysOf a).filter (fun x => !decide (x ∈ keysOf a)) = [] := by
        rw [List.filter_eq_nil]
        intro x hx
        simp [hx]
      rw [hfa, List.nil_append, List.filter_filter]
      apply List.filter_congr
      intro x _
      simp
    -- lookups agree
    have hlook : ∀ q, lookupv q out = lookupv q c := by
      intro q
      have r1 := merge_lookup b a c hwb h q
      have r2 := merge_lookup c a out hwc hout q
      rcases MergeRel_invert _ _ _ r1 with ⟨hy, hz⟩ | ⟨s, hy, hz⟩ |
        ⟨ys, zs, hy, hz, hx, hm⟩ | ⟨xs, ys, zs, hx, hy, hz, hm⟩
      · -- `b` has no entry at `q`: `c` agrees with `a` there
        rw [hz] at r2
        rcases hA : lookupv q a with _ | ⟨s | xs⟩ <;> rw [hA] at r2
        · rw [MergeRel_none_invert _ _ r2, hz, hA]
        · rcases MergeRel_invert _ _ _ r2 with ⟨hy2, hz2⟩ | ⟨s2, hy2, hz2⟩ |
            ⟨ys2, zs2, hy2, hz2, hx2, hm2⟩ | ⟨xs2, ys2, zs2, hx2, hy2, hz2, hm2⟩
          · exact absurd hy2 (by simp)
          · obtain rfl : s2 = s := by injection hy2.symm with h2; injection h2
            rw [hz2, hz, hA]
          · exact absurd hy2 (by simp)
          · exact absurd hy2 (by simp)
        · rcases MergeRel_invert _ _ _ r2 with ⟨hy2, hz2⟩ | ⟨s2, hy2, hz2⟩ |
            ⟨ys2, zs2, hy2, hz2, hx2, hm2⟩ | ⟨xs2, ys2, zs2, hx2, hy2, hz2, hm2⟩
          · exact absurd hy2 (by simp)
          · exact absurd hy2 (by simp)
          · exact absurd hx2 (by simp)
          · have hxx2 : xs2 = xs := by injection hx2.symm with h2; injection h2
            have hyy2 : ys2 = xs := by injection hy2.symm with h2; injection h2
            have hsx : sizeOf xs < sizeOf a := by
              have h3 := sizeOf_lookupv _ _ _ hA
              simp at h3
              omega
            have hxx := hself xs hsx (wf_lookup_sec a q xs hwa hA)
            have hzz2 : zs2 = xs := by
              rw [hxx2, hyy2] at hm2
              rw [hm2] at hxx
              injection hxx
            rw [hz2, hzz2, hz, hA]
      · -- `b` overwrote `q` with a string
        rw [hz] at r2
        rcases MergeRel_invert _ _ _ r2 with ⟨hy2, hz2⟩ | ⟨s2, hy2, hz2⟩ |
          ⟨ys2, zs2, hy2, hz2, hx2, hm2⟩ | ⟨xs2, ys2, zs2, hx2, hy2, hz2, hm2⟩
        · exact absurd hy2 (by simp)
        · obtain rfl : s2 = s := by injection hy2.symm with h2; injection h2
          rw [hz2, hz]
        · exact absurd hy2 (by simp)
        · exact absurd hy2 (by simp)
      · -- `b` added a fresh section at `q`
        rw [hz] at r2
        have hsy : sizeOf ys < sizeOf b := by
          have h3 := sizeOf_lookupv _ _ _ hy
          simp at h3
          omega
        have hidem : merge [] zs = .ok zs :=
          ih [] ys zs (by simp; omega) (by simp [wfItems]) (wf_lookup_sec b q ys hwb hy) hm
        rcases MergeRel_invert _ _ _ r2 with ⟨hy2, hz2⟩ | ⟨s2, hy2, hz2⟩ |
          ⟨ys2, zs2, hy2, hz2, hx2, hm2⟩ | ⟨xs2, ys2, zs2, hx2, hy2, hz2, hm2⟩
        · exact absurd hy2 (by simp)
        · exact absurd hy2 (by simp)
        · have hyy2 : ys2 = zs := by injection hy2.symm with h2; injection h2
          have hzz2 : zs2 = zs := by
            rw [hyy2] at hm2
            rw [hm2] at hidem
            injection hidem
          rw [hz2, hzz2, hz]
        · rw [hx] at hx2
          exact absurd hx2 (by simp)
      · -- sections merged at `q`
        rw [hz] at r2
        have hsx : sizeOf xs < sizeOf a := by
          have h3 := sizeOf_lookupv _ _ _ hx
          simp at h3
          omega
        have hsy : sizeOf ys < sizeOf b := by
          have h3 := sizeOf_lookupv _ _ _ hy
          simp at h3
          omega
        have hidem : merge xs zs = .ok zs :=
          ih xs ys zs (by omega) (wf_lookup_sec a q xs hwa hx)
            (wf_lookup_sec b q ys hwb hy) hm
        rcases MergeRel_invert _ _ _ r2 with ⟨hy2, hz2⟩ | ⟨s2, hy2, hz2⟩ |
          ⟨ys2, zs2, hy2, hz2, hx2, hm2⟩ | ⟨xs2, ys2, zs2, hx2, hy2, hz2, hm2⟩
        · exact absurd hy2 (by simp)
        · exact absurd hy2 (by simp)
        · rw [hx] at hx2
          exact absurd hx2 (by simp)
        · have hyy2 : ys2 = zs := by injection hy2.symm with h2; injection h2
          rw [hx] at hx2
          have hxx2 : xs2 = xs := by injection hx2.symm with h2; injection h2
          have hzz2 : zs2 = zs := by
            rw [hyy2, hxx2] at hm2
            rw [hm2] at hidem
            injection hidem
          rw [hz2, hzz2, hz]
    exact items_ext out c hkeq (hkeq ▸ wf_nodup _ hwc) hlook

theorem meld_nil (x : Items) : meld x [] = .ok x := by
  simp [meld]

/-- Key sequence of a successful meld: the keys of `self` in place, then
the missing keys of `b` in `b`'s order. -/
theorem meld_keys (b : Items) : ∀ self c, wfItems b = true →
    meld self b = .ok c →
    keysOf c = keysOf self ++ (keysOf b).filter (fun x => !decide (x ∈ keysOf self)) := by
  induction b with
  | nil =>
    intro self c _ h
    simp only [meld] at h
    cases h
    simp [keysOf]
  | cons e rest ih =>
    obtain ⟨k, v⟩ := e
    intro self c hwf h
    have hk1 := wf_head_not_mem _ _ _ hwf
    have hk3 := wf_tail _ _ _ hwf
    cases v with
    | str s =>
      have hcanon : optionxform k = k := wf_str_canon _ _ _ hwf
      simp only [meld, hcanon] at h
      rcases hl : lookupv k self with _ | v0 <;> simp only [hl] at h
      · have hm : ¬ k ∈ keysOf self := by
          intro hc
          exact lookupv_ne_none_of_mem _ _ hc hl
        have hkeys := ih (setv k (.str s) self) c hk3 h
        rw [hkeys, keysOf_cons, setv_of_not_mem _ _ _ hm, keysOf, List.map_append]
        exact helperB (keysOf self) (keysOf rest) k hm hk1
      · have hm : k ∈ keysOf self := (mem_of_lookupv_some _ _ _ hl).1
        have hkeys := ih self c hk3 h
        rw [hkeys, keysOf_cons]
        exact helperA _ _ _ hm
    | sec bs =>
      simp only [meld] at h
      rcases hl : lookupv k self with _ | ⟨_ | as⟩ <;> simp only [hl] at h
      · rcases hin : meld [] bs with e' | m <;> simp only [hin] at h
        · exact Except.noConfusion h
        · have hm : ¬ k ∈ keysOf self := by
            intro hc
            exact lookupv_ne_none_of_mem _ _ hc hl
          have hkeys := ih (setv k (.sec m) self) c hk3 h
          rw [hkeys, keysOf_cons, setv_of_not_mem _ _ _ hm, keysOf, List.map_append]
          exact helperB (keysOf self) (keysOf rest) k hm hk1
      · exact Except.noConfusion h
      · rcases hin : meld as bs with e' | m <;> simp only [hin] at h
        · exact Except.noConfusion h
        · have hm : k ∈ keysOf self := (mem_of_lookupv_some _ _ _ hl).1
          have hkeys := ih (setv k (.sec m) self) c hk3 h
          rw [hkeys, keysOf_cons, keysOf_setv_of_mem _ _ _ hm]
          exact helperA _ _ _ hm

/-- Pointwise relationship between the lookups of `self`, `b`, and of a
successful `meld self b`. -/
inductive MeldRel : Option CVal → Option CVal → Option CVal → Prop where
  | keep (x : Option CVal) : MeldRel x none x
  | exist (v : CVal) (s : String) : MeldRel (some v) (some (.str s)) (some v)
  | addStr (s : String) : MeldRel none (some (.str s)) (some (.str s))
  | secNew (y z : Items) : meld [] y = .ok z → MeldRel none (some (.sec y)) (some (.sec z))
  | secMeld (x y z : Items) : meld x y = .ok z →
      MeldRel (some (.sec x)) (some (.sec y)) (some (.sec z))

theorem MeldRel_none_invert (x z : Option CVal) (h : MeldRel x none z) : z = x := by
  cases h
  rfl

theorem MeldRel_invert (x y z : Option CVal) (h : MeldRel x y z) :
    (y = none ∧ z = x) ∨
    (∃ v s, y = some (.str s) ∧ x = some v ∧ z = some v) ∨
    (∃ s, y = some (.str s) ∧ x = none ∧ z = some (.str s)) ∨
    (∃ ys zs, y = some (.sec ys) ∧ x = none ∧ z = some (.sec zs) ∧
      meld [] ys = .ok zs) ∨
    (∃ xs ys zs, x = some (.sec xs) ∧ y = some (.sec ys) ∧ z = some (.sec zs) ∧
      meld xs ys = .ok zs) := by
  cases h with
  | keep _ => exact .inl ⟨rfl, rfl⟩
  | exist v s => exact .inr (.inl ⟨v, s, rfl, rfl, rfl⟩)
  | addStr s => exact .inr (.inr (.inl ⟨s, rfl, rfl, rfl⟩))
  | secNew y z hm => exact .inr (.inr (.inr (.inl ⟨y, z, rfl, rfl, rfl, hm⟩)))
  | secMeld x y z hm => exact .inr (.inr (.inr (.inr ⟨x, y, z, rfl, rfl, rfl, hm⟩)))

theorem meld_lookup (b : Items) : ∀ self c, wfItems b = true →
    meld self b = .ok c →
    ∀ q, MeldRel (lookupv q self) (lookupv q b) (lookupv q c) := by
  induction b with
  | nil =>
    intro self c _ h q
    simp only [meld] at h
    cases h
    exact .keep _
  | cons e rest ih =>
    obtain ⟨k, v⟩ := e
    intro self c hwf h q
    have hk1 := wf_head_not_mem _ _ _ hwf
    have hk3 := wf_tail _ _ _ hwf
    cases v with
    | str s =>
      have hcanon := wf_str_canon _ _ _ hwf
      simp only [meld, hcanon] at h
      rcases hl : lookupv k self with _ | v0 <;> simp only [hl] at h
      · -- key absent: the string is inserted
        have hrel := ih (setv k (.str s) self) c hk3 h
        by_cases hq : k = q
        · subst hq
          have h1 := hrel k
          rw [lookupv_setv_self, lookupv_eq_none_of_not_mem _ _ hk1] at h1
          have hc := MeldRel_none_invert _ _ h1
          rw [lookupv_cons, if_pos rfl, hc, hl]
          exact .addStr _
        · have h1 := hrel q
          rw [lookupv_setv_ne _ _ _ _ (fun hh => hq hh.symm)] at h1
          rw [lookupv_cons, if_neg hq]
          exact h1
      · -- key present: self unchanged
        have hrel := ih self c hk3 h
        by_cases hq : k = q
        · subst hq
          have h1 := hrel k
          rw [lookupv_eq_none_of_not_mem _ _ hk1] at h1
          have hc := MeldRel_none_invert _ _ h1
          rw [lookupv_cons, if_pos rfl, hc, hl]
          exact .exist _ _
        · have h1 := hrel q
          rw [lookupv_cons, if_neg hq]
          exact h1
    | sec bs =>
      simp only [meld] at h
      rcases hl : lookupv k self with _ | ⟨_ | as⟩ <;> simp only [hl] at h
      · rcases hin : meld [] bs with e' | m <;> simp only [hin] at h
        · exact Except.noConfusion h
        · have hrel := ih (setv k (.sec m) self) c hk3 h
          by_cases hq : k = q
          · subst hq
            have h1 := hrel k
            rw [lookupv_setv_self, lookupv_eq_none_of_not_mem _ _ hk1] at h1
            have hc := MeldRel_none_invert _ _ h1
            rw [lookupv_cons, if_pos rfl, hc, hl]
            exact .secNew _ _ hin
          · have h1 := hrel q
            rw [lookupv_setv_ne _ _ _ _ (fun hh => hq hh.symm)] at h1
            rw [lookupv_cons, if_neg hq]
            exact h1
      · exact Except.noConfusion h
      · rcases hin : meld as bs with e' | m <;> simp only [hin] at h
        · exact Except.noConfusion h
        · have hrel := ih (setv k (.sec m) self) c hk3 h
          by_cases hq : k = q
          · subst hq
            have h1 := hrel k
            rw [lookupv_setv_self, lookupv_eq_none_of_not_mem _ _ hk1] at h1
            have hc := MeldRel_none_invert _ _ h1
            rw [lookupv_cons, if_pos rfl, hc, hl]
            exact .secMeld _ _ _ hin
          · have h1 := hrel q
            rw [lookupv_setv_ne _ _ _ _ (fun hh => hq hh.symm)] at h1
            rw [lookupv_cons, if_neg hq]
            exact h1

/-- A successful meld exists whenever `b` is conflict-free against
`a`. -/
theorem meld_ok_of_compat : ∀ (n : Nat) (b a : Items), sizeOf b ≤ n →
    wfItems b = true → compatB a b = true → ∃ c, meld a b = .ok c := by
  intro n
  induction n with
  | zero =>
    intro b a hb
    have := sizeOf_items_pos b
    omega
  | succ n ih =>
    intro b a hb hwf hcompat
    match b with
    | [] => exact ⟨a, meld_nil a⟩
    | (k, .str s) :: rest =>
      have hk1 := wf_head_not_mem _ _ _ hwf
      have hcanon := wf_str_canon _ _ _ hwf
      have hc1 : compatB a rest = true := by
        simpa only [compatB] using hcompat
      have hsz : sizeOf rest ≤ n := by simp at hb; omega
      rcases hl : lookupv k a with _ | v0
      · have hc2 : compatB (setv (optionxform k) (.str s) a) rest = true := by
          rw [hcanon, compat_setv _ _ _ _ hk1]
          exact hc1
        obtain ⟨c, hc⟩ := ih rest (setv (optionxform k) (.str s) a) hsz
          (wf_tail _ _ _ hwf) hc2
        exact ⟨c, by simp only [meld, hl]; exact hc⟩
      · obtain ⟨c, hc⟩ := ih rest a hsz (wf_tail _ _ _ hwf) hc1
        exact ⟨c, by simp only [meld, hl]; exact hc⟩
    | (k, .sec bs) :: rest =>
      have hk1 := wf_head_not_mem _ _ _ hwf
      have hszr : sizeOf rest ≤ n := by simp at hb; omega
      have hszb : sizeOf bs ≤ n := by simp at hb; omega
      rcases hl : lookupv k a with _ | ⟨_ | as⟩ <;>
        simp only [compatB, hl, Bool.and_eq_true] at hcompat
      · obtain ⟨m, hm⟩ := ih bs [] hszb (wf_sec_inner _ _ _ hwf) (compat_nil_left bs)
        have hc2 : compatB (setv k (.sec m) a) rest = true := by
          rw [compat_setv _ _ _ _ hk1]
          exact hcompat.2
        obtain ⟨c, hc⟩ := ih rest (setv k (.sec m) a) hszr (wf_tail _ _ _ hwf) hc2
        exact ⟨c, by simp only [meld, hl, hm]; exact hc⟩
      · simp at hcompat
      · obtain ⟨m, hm⟩ := ih bs as hszb (wf_sec_inner _ _ _ hwf) hcompat.1
        have hc2 : compatB (setv k (.sec m) a) rest = true := by
          rw [compat_setv _ _ _ _ hk1]
          exact hcompat.2
        obtain ⟨c, hc⟩ := ih rest (setv k (.sec m) a) hszr (wf_tail _ _ _ hwf) hc2
        exact ⟨c, by simp only [meld, hl, hm]; exact hc⟩

/-- A successful meld of well-formed configs is well-formed. -/
theorem wf_meld : ∀ (n : Nat) (a b c : Items), sizeOf a + sizeOf b ≤ n →
    wfItems a = true → wfItems b = true → meld a b = .ok c →
    wfItems c = true := by
  intro n
  induction n with
  | zero =>
    intro a b c hn
    have := sizeOf_items_pos a
    have := sizeOf_items_pos b
    omega
  | succ n ih =>
    intro a b c hn hwa hwb h
    have hkeys := meld_keys b a c hwb h
    have hnodup : (keysOf c).Nodup := by
      rw [hkeys]
      refine List.Nodup.append (wf_nodup _ hwa) ((wf_nodup _ hwb).filter _) ?_
      intro x hx1 hx2
      have := List.of_mem_filter hx2
      simp at this
      exact this hx1
    refine wf_of_pointwise c hnodup ?_ ?_
    · intro k s hl
      have hrel := meld_lookup b a c hwb h k
      rw [hl] at hrel
      rcases MeldRel_invert _ _ _ hrel with ⟨hy, hz⟩ | ⟨v, s', hy, hx, hz⟩ |
        ⟨s', hy, hx, hz⟩ | ⟨ys, zs, hy, hx, hz, hm⟩ | ⟨xs, ys, zs, hx, hy, hz, hm⟩
      · exact wf_lookup_str_canon a k s hwa hz.symm
      · have hv : v = .str s := by injection hz.symm with h2
        rw [hv] at hx
        exact wf_lookup_str_canon a k s hwa hx
      · have hss : s' = s := by injection hz.symm with h2; injection h2
        rw [hss] at hy
        exact wf_lookup_str_canon b k s hwb hy
      · exact absurd hz (by simp)
      · exact absurd hz (by simp)
    · intro k bs hl
      have hrel := meld_lookup b a c hwb h k
      rw [hl] at hrel
      rcases MeldRel_invert _ _ _ hrel with ⟨hy, hz⟩ | ⟨v, s', hy, hx, hz⟩ |
        ⟨s', hy, hx, hz⟩ | ⟨ys, zs, hy, hx, hz, hm⟩ | ⟨xs, ys, zs, hx, hy, hz, hm⟩
      · exact wf_lookup_sec a k bs hwa hz.symm
      · have hv : v = .sec bs := by injection hz.symm with h2
        rw [hv] at hx
        exact wf_lookup_sec a k bs hwa hx
      · exact absurd hz (by simp)
      · have hzz : zs = bs := by injection hz.symm with h2; injection h2
        have hwy : wfItems ys = true := wf_lookup_sec b k ys hwb hy
        have hsy : sizeOf ys < sizeOf b := by
          have h3 := sizeOf_lookupv _ _ _ hy
          simp at h3
          omega
        have hsa := sizeOf_items_pos a
        rw [← hzz]
        exact ih [] ys zs (by simp; omega) (by simp [wfItems]) hwy hm
      · have hzz : zs = bs := by injection hz.symm with h2; injection h2
        have hwx := wf_lookup_sec a k xs hwa hx
        have hwy := wf_lookup_sec b k ys hwb hy
        have hsx : sizeOf xs < sizeOf a := by
          have h3 := sizeOf_lookupv _ _ _ hx
          simp at h3
          omega
        have hsy : sizeOf ys < sizeOf b := by
          have h3 := sizeOf_lookupv _ _ _ hy
          simp at h3
          omega
        rw [← hzz]
        exact ih xs ys zs (by omega) hwx hwy hm

/-- The output of a successful meld of well-formed configs is
conflict-free against the left input. -/
theorem compat_meld_out : ∀ (n : Nat) (x y z : Items), sizeOf x + sizeOf y ≤ n →
    wfItems x = true → wfItems y = true → meld x y = .ok z →
    compatB x z = true := by
  intro n
  induction n with
  | zero =>
    intro x y z hn
    have := sizeOf_items_pos x
    have := sizeOf_items_pos y
    omega
  | succ n ih =>
    intro x y z hn hwx hwy h
    have hwz : wfItems z = true := wf_meld (sizeOf x + sizeOf y) x y z (le_refl _) hwx hwy h
    refine compat_of_pointwise z x (wf_nodup _ hwz) ?_
    intro k bs hl
    have hrel := meld_lookup y x z hwy h k
    rw [hl] at hrel
    rcases MeldRel_invert _ _ _ hrel with ⟨hy', hz⟩ | ⟨v, s', hy', hx', hz⟩ |
      ⟨s', hy', hx', hz⟩ | ⟨ys, zs, hy', hx', hz, hm⟩ | ⟨xs, ys, zs, hx', hy', hz, hm⟩
    · have hx2 : lookupv k x = some (.sec bs) := hz.symm
      refine .inr ⟨bs, hx2, ?_⟩
      have hsb : sizeOf bs < sizeOf x := by
        have h3 := sizeOf_lookupv _ _ _ hx2
        simp at h3
        omega
      have hyp := sizeOf_items_pos y
      exact ih bs [] bs (by simp; omega) (wf_lookup_sec x k bs hwx hx2)
        (by simp [wfItems]) (meld_nil bs)
    · have hv : v = .sec bs := by injection hz.symm with h2
      rw [hv] at hx'
      refine .inr ⟨bs, hx', ?_⟩
      have hsb : sizeOf bs < sizeOf x := by
        have h3 := sizeOf_lookupv _ _ _ hx'
        simp at h3
        omega
      have hyp := sizeOf_items_pos y
      exact ih bs [] bs (by simp; omega) (wf_lookup_sec x k bs hwx hx')
        (by simp [wfItems]) (meld_nil bs)
    · exact absurd hz (by simp)
    · exact .inl hx'
    · have hzz : zs = bs := by injection hz.symm with h2; injection h2
      refine .inr ⟨xs, hx', ?_⟩
      have hsx : sizeOf xs < sizeOf x := by
        have h3 := sizeOf_lookupv _ _ _ hx'
        simp at h3
        omega
      have hsy : sizeOf ys < sizeOf y := by
        have h3 := sizeOf_lookupv _ _ _ hy'
        simp at h3
        omega
      rw [← hzz]
      exact ih xs ys zs (by omega) (wf_lookup_sec x k xs hwx hx')
        (wf_lookup_sec y k ys hwy hy') hm

/-- Idempotence of meld: melding the result of `meld a b` into `a` again
reproduces it. -/
theorem meld_idem_aux : ∀ (n : Nat) (a b c : Items), sizeOf a + sizeOf b ≤ n →
    wfItems a = true → wfItems b = true → meld a b = .ok c →
    meld a c = .ok c := by
  intro n
  induction n with
  | zero =>
    intro a b c hn
    have := sizeOf_items_pos a
    have := sizeOf_items_pos b
    omega
  | succ n ih =>
    intro a b c hn hwa hwb h
    have hwc : wfItems c = true := wf_meld _ a b c (le_refl _) hwa hwb h
    have hcompat : compatB a c = true := compat_meld_out _ a b c (le_refl _) hwa hwb h
    obtain ⟨out, hout⟩ := meld_ok_of_compat (sizeOf c) c a (le_refl _) hwc hcompat
    suffices hoc : out = c by rw [hout, hoc]
    have hposa := sizeOf_items_pos a
    have hposb := sizeOf_items_pos b
    have hself : ∀ xs, sizeOf xs < sizeOf a → wfItems xs = true →
        meld xs xs = .ok xs := by
      intro xs hs hw
      exact ih xs [] xs (by simp; omega) hw (by simp [wfItems]) (meld_nil xs)
    have hk1 := meld_keys b a c hwb h
    have hk2 := meld_keys c a out hwc hout
    have hkeq : keysOf out = keysOf c := by
      rw [hk2]
      conv_rhs => rw [hk1]
      congr 1
      rw [hk1, List.filter_append]
      have hfa : (keysOf a).filter (fun x => !decide (x ∈ keysOf a)) = [] := by
        rw [List.filter_eq_nil]
        intro x hx
        simp [hx]
      rw [hfa, List.nil_append, List.filter_filter]
      apply List.filter_congr
      intro x _
      simp
    have hlook : ∀ q, lookupv q out = lookupv q c := by
      intro q
      have r1 := meld_lookup b a c hwb h q
      have r2 := meld_lookup c a out hwc hout q
      have hdiag : ∀ (v : CVal), lookupv q a = some v → lookupv q c = some v →
          lookupv q out = some v := by
        intro v hA hC
        rw [hC] at r2
        cases v with
        | str s =>
          rcases MeldRel_invert _ _ _ r2 with ⟨hy2, hz2⟩ | ⟨v2, s2, hy2, hx2, hz2⟩ |
            ⟨s2, hy2, hx2, hz2⟩ | ⟨ys2, zs2, hy2, hx2, hz2, hm2⟩ |
            ⟨xs2, ys2, zs2, hx2, hy2, hz2, hm2⟩
          · exact absurd hy2 (by simp)
          · rw [hz2, hx2.symm.trans hA]
          · rw [hA] at hx2
            exact absurd hx2 (by simp)
          · rw [hA] at hx2
            exact absurd hx2 (by simp)
          · exact absurd hy2 (by simp)
        | sec xs =>
          rcases MeldRel_invert _ _ _ r2 with ⟨hy2, hz2⟩ | ⟨v2, s2, hy2, hx2, hz2⟩ |
            ⟨s2, hy2, hx2, hz2⟩ | ⟨ys2, zs2, hy2, hx2, hz2, hm2⟩ |
            ⟨xs2, ys2, zs2, hx2, hy2, hz2, hm2⟩
          · exact absurd hy2 (by simp)
          · exact absurd hy2 (by simp)
          · exact absurd hy2 (by simp)
          · rw [hA] at hx2
            exact absurd hx2 (by simp)
          · have hyy2 : ys2 = xs := by injection hy2.symm with h2; injection h2
            rw [hA] at hx2
            have hxx2 : xs2 = xs := by injection hx2.symm with h2; injection h2
            have hsx : sizeOf xs < sizeOf a := by
              have h3 := sizeOf_lookupv _ _ _ hA
              simp at h3
              omega
            have hxx := hself xs hsx (wf_lookup_sec a q xs hwa hA)
            have hzz2 : zs2 = xs := by
              rw [hxx2, hyy2] at hm2
              rw [hm2] at hxx
              injection hxx
            rw [hz2, hzz2]
      rcases MeldRel_invert _ _ _ r1 with ⟨hy, hz⟩ | ⟨v, s, hy, hx, hz⟩ |
        ⟨s, hy, hx, hz⟩ | ⟨ys, zs, hy, hx, hz, hm⟩ | ⟨xs, ys, zs, hx, hy, hz, hm⟩
      · -- `b` has no entry at `q`
        rw [hz] at r2 ⊢
        rcases hA : lookupv q a with _ | v
        · rw [hA] at r2
          exact MeldRel_none_invert _ _ r2
        · exact hdiag v hA (hz.trans hA)
      · -- `b`'s string lost to an existing entry of `a`
        rw [hz]
        exact hdiag v hx (hz ▸ rfl)
      · -- `b`'s string filled an absent key
        rw [hz] at r2
        rcases MeldRel_invert _ _ _ r2 with ⟨hy2, hz2⟩ | ⟨v2, s2, hy2, hx2, hz2⟩ |
          ⟨s2, hy2, hx2, hz2⟩ | ⟨ys2, zs2, hy2, hx2, hz2, hm2⟩ |
          ⟨xs2, ys2, zs2, hx2, hy2, hz2, hm2⟩
        · exact absurd hy2 (by simp)
        · rw [hx] at hx2
          exact absurd hx2 (by simp)
        · have hss : s2 = s := by injection hy2.symm with h2; injection h2
          rw [hz2, hss, hz]
        · exact absurd hy2 (by simp)
        · rw [hx] at hx2
          exact absurd hx2 (by simp)
      · -- `b` added a fresh section at `q`
        rw [hz] at r2
        have hsy : sizeOf ys < sizeOf b := by
          have h3 := sizeOf_lookupv _ _ _ hy
          simp at h3
          omega
        have hidem : meld [] zs = .ok zs :=
          ih [] ys zs (by simp; omega) (by simp [wfItems])
            (wf_lookup_sec b q ys hwb hy) hm
        rcases MeldRel_invert _ _ _ r2 with ⟨hy2, hz2⟩ | ⟨v2, s2, hy2, hx2, hz2⟩ |
          ⟨s2, hy2, hx2, hz2⟩ | ⟨ys2, zs2, hy2, hx2, hz2, hm2⟩ |
          ⟨xs2, ys2, zs2, hx2, hy2, hz2, hm2⟩
        · exact absurd hy2 (by simp)
        · exact absurd hy2 (by simp)
        · exact absurd hy2 (by simp)
        · have hyy2 : ys2 = zs := by injection hy2.symm with h2; injection h2
          have hzz2 : zs2 = zs := by
            rw [hyy2] at hm2
            rw [hm2] at hidem
            injection hidem
          rw [hz2, hzz2, hz]
        · rw [hx] at hx2
          exact absurd hx2 (by simp)
      · -- sections melded at `q`
        rw [hz] at r2
        have hsx : sizeOf xs < sizeOf a := by
          have h3 := sizeOf_lookupv _ _ _ hx
          simp at h3
          omega
        have hsy : sizeOf ys < sizeOf b := by
          have h3 := sizeOf_lookupv _ _ _ hy
          simp at h3
          omega
        have hidem : meld xs zs = .ok zs :=
          ih xs ys zs (by omega) (wf_lookup_sec a q xs hwa hx)
            (wf_lookup_sec b q ys hwb hy) hm
        rcases MeldRel_invert _ _ _ r2 with ⟨hy2, hz2⟩ | ⟨v2, s2, hy2, hx2, hz2⟩ |
          ⟨s2, hy2, hx2, hz2⟩ | ⟨ys2, zs2, hy2, hx2, hz2, hm2⟩ |
          ⟨xs2, ys2, zs2, hx2, hy2, hz2, hm2⟩
        · exact absurd hy2 (by simp)
        · exact absurd hy2 (by simp)
        · exact absurd hy2 (by simp)
        · rw [hx] at hx2
          exact absurd hx2 (by simp)
        · have hyy2 : ys2 = zs := by injection hy2.symm with h2; injection h2
          rw [hx] at hx2
          have hxx2 : xs2 = xs := by injection hx2.symm with h2; injection h2
          have hzz2 : zs2 = zs := by
            rw [hyy2, hxx2] at hm2
            rw [hm2] at hidem
            injection hidem
          rw [hz2, hzz2, hz]
    exact items_ext out c hkeq (hkeq ▸ wf_nodup _ hwc) hlook

/-- C9: over well-formed configs (unique keys per level, canonical
string-valued keys — the invariant `__setitem__` maintains), `merge` and
`meld` are idempotent: `merge(a, merge(a,b)) = merge(a,b)` and
`meld(a, meld(a,b)) = meld(a,b)` whenever the first application
succeeds; moreover `merge` overwrites scalar keys of `a` with those of
`b` and recursively merges matching sections, while `meld` preserves
existing scalars of `a`, only fills in missing keys, and introduces no
key that is not in `a` or `b`. -/
theorem c9_merge_meld_idempotent (a b : Items)
    (ha : wfItems a = true) (hb : wfItems b = true) :
    (∀ c, merge a b = .ok c → merge a c = .ok c) ∧
    (∀ c, meld a b = .ok c → meld a c = .ok c) ∧
    (∀ c k s, merge a b = .ok c → lookupv k b = some (.str s) →
      lookupv k c = some (.str s)) ∧
    (∀ c k as bs, merge a b = .ok c → lookupv k a = some (.sec as) →
      lookupv k b = some (.sec bs) →
      ∃ m, merge as bs = .ok m ∧ lookupv k c = some (.sec m)) ∧
    (∀ c k s, meld a b = .ok c → lookupv k a = some (.str s) →
      lookupv k c = some (.str s)) ∧
    (∀ c k v, meld a b = .ok c → lookupv k a = none →
      lookupv k b = some (.str v) → lookupv k c = some (.str v)) ∧
    (∀ c k, meld a b = .ok c → k ∈ keysOf c → k ∈ keysOf a ∨ k ∈ keysOf b) := by
  refine ⟨?_, ?_, ?_, ?_, ?_, ?_, ?_⟩
  · intro c h
    exact merge_idem_aux (sizeOf a + sizeOf b) a b c (le_refl _) ha hb h
  · intro c h
    exact meld_idem_aux (sizeOf a + sizeOf b) a b c (le_refl _) ha hb h
  · intro c k s h hbk
    have rel := merge_lookup b a c hb h k
    rw [hbk] at rel
    rcases MergeRel_invert _ _ _ rel with ⟨hy, hz⟩ | ⟨s2, hy, hz⟩ |
      ⟨ys, zs, hy, hz, hx, hm⟩ | ⟨xs, ys, zs, hx, hy, hz, hm⟩
    · exact absurd hy (by simp)
    · have hss : s2 = s := by injection hy.symm with h2; injection h2
      rw [hz, hss]
    · exact absurd hy (by simp)
    · exact absurd hy (by simp)
  · intro c k as bs h hak hbk
    have rel := merge_lookup b a c hb h k
    rw [hak, hbk] at rel
    rcases MergeRel_invert _ _ _ rel with ⟨hy, hz⟩ | ⟨s2, hy, hz⟩ |
      ⟨ys, zs, hy, hz, hx, hm⟩ | ⟨xs, ys, zs, hx, hy, hz, hm⟩
    · exact absurd hy (by simp)
    · exact absurd hy (by simp)
    · exact absurd hx (by simp)
    · have hxx : xs = as := by injection hx.symm with h2; injection h2
      have hyy : ys = bs := by injection hy.symm with h2; injection h2
      rw [hxx, hyy] at hm
      exact ⟨zs, hm, hz⟩
  · intro c k s h hak
    have rel := meld_lookup b a c hb h k
    rw [hak] at rel
    rcases MeldRel_invert _ _ _ rel with ⟨hy, hz⟩ | ⟨v2, s2, hy, hx, hz⟩ |
      ⟨s2, hy, hx, hz⟩ | ⟨ys, zs, hy, hx, hz, hm⟩ | ⟨xs, ys, zs, hx, hy, hz, hm⟩
    · exact hz
    · have hv : v2 = .str s := by injection hx.symm with h2
      rw [hz, hv]
    · exact absurd hx (by simp)
    · exact absurd hx (by simp)
    · exact absurd hx (by simp)
  · intro c k v h hak hbk
    have rel := meld_lookup b a c hb h k
    rw [hak, hbk] at rel
    rcases MeldRel_invert _ _ _ rel with ⟨hy, hz⟩ | ⟨v2, s2, hy, hx, hz⟩ |
      ⟨s2, hy, hx, hz⟩ | ⟨ys, zs, hy, hx, hz, hm⟩ | ⟨xs, ys, zs, hx, hy, hz, hm⟩
    · exact absurd hy (by simp)
    · exact absurd hx (by simp)
    · have hss : s2 = v := by injection hy.symm with h2; injection h2
      rw [hz, hss]
    · exact absurd hy (by simp)
    · exact absurd hx (by simp)
  · intro c k h hkc
    have hkeys := meld_keys b a c hb h
    rw [hkeys, List.mem_append] at hkc
    rcases hkc with hkc | hkc
    · exact .inl hkc
    · exact .inr (List.mem_of_mem_filter hkc)

def demoCfgA : Items := [("x", .str "1"), ("s", .sec [("y", .str "2")])]

def demoCfgB : Items :=
  [("x", .str "9"), ("s", .sec [("z", .str "3")]), ("w", .str "4")]

def demoCfgAB : Items :=
  [("x", .str "9"), ("s", .sec [("y", .str "2"), ("z", .str "3")]), ("w", .str "4")]

def demoCfgMeld : Items :=
  [("x", .str "1"), ("s", .sec [("y", .str "2"), ("z", .str "3")]), ("w", .str "4")]

/-- Witness for `c9_merge_meld_idempotent` on two small configs with a
shared scalar, a shared section and a fresh key. -/
theorem c9_merge_meld_idempotent_witness :
    merge demoCfgA demoCfgB = .ok demoCfgAB ∧
    merge demoCfgA demoCfgAB = .ok demoCfgAB ∧
    meld demoCfgA demoCfgB = .ok demoCfgMeld ∧
    meld demoCfgA demoCfgMeld = .ok demoCfgMeld := by
  have hwa : wfItems demoCfgA = true := by
    simp [demoCfgA, wfItems, keysOf, optionxform]
  have hwb : wfItems demoCfgB = true := by
    simp [demoCfgB, wfItems, keysOf, optionxform]
  have hab : merge demoCfgA demoCfgB = .ok demoCfgAB := by
    simp [demoCfgA, demoCfgB, demoCfgAB, merge, setv, lookupv, optionxform]
  have hmeld : meld demoCfgA demoCfgB = .ok demoCfgMeld := by
    simp [demoCfgA, demoCfgB, demoCfgMeld, meld, setv, lookupv, optionxform]
  refine ⟨hab, ?_, hmeld, ?_⟩
  · exact (c9_merge_meld_idempotent demoCfgA demoCfgB hwa hwb).1 demoCfgAB hab
  · exact (c9_merge_meld_idempotent demoCfgA demoCfgB hwa hwb).2.1 demoCfgMeld hmeld

end Holland
